import Mathlib

/-!
Test-case validator (`scripts/validate-schema.cjs`).

A shallow embedding of the validation script: the step-sequence checker for the
front matter, the body-step formatter checker, the filename/id checker and the
orchestrating loop, followed by the properties proved about them.

Conventions of the embedding.

* Every checker of the script returns a boolean and writes its diagnostics with
  `console.error`. Its model returns the pair of the boolean and the list of
  lines written, in order.
* A JavaScript string is a Lean `String`; the regular expressions of the script
  use no `u` flag and only the classes `\s`, `\S`, `\d` and literal ASCII
  characters, for which matching code point by code point agrees with matching
  UTF-16 unit by unit (a surrogate is neither a digit nor white space).
-/

namespace ValidateSchema

/-! ## JavaScript values -/

/-- A JSON-like JavaScript value, as the front-matter parser produces it.
Numbers are only ever observed through `typeof` and truthiness, so they are
kept as integers with `nan` apart. An object is the list of its own enumerable
properties; should a key be repeated, the first binding is the property. -/
inductive JsVal where
  | undefined : JsVal
  | null : JsVal
  | bool (b : Bool) : JsVal
  | num (n : Int) : JsVal
  | nan : JsVal
  | str (s : String) : JsVal
  | arr (xs : List JsVal) : JsVal
  | obj (kvs : List (String × JsVal)) : JsVal

namespace JsVal

/-- The `typeof` operator. -/
def typeof : JsVal → String
  | undefined => "undefined"
  | null => "object"
  | bool _ => "boolean"
  | num _ => "number"
  | nan => "number"
  | str _ => "string"
  | arr _ => "object"
  | obj _ => "object"

/-- Truthiness (`ToBoolean`). -/
def truthy : JsVal → Bool
  | undefined => false
  | null => false
  | bool b => b
  | num n => n != 0
  | nan => false
  | str s => s != ""
  | arr _ => true
  | obj _ => true

/-- The result of `Array.isArray`. -/
def isArray : JsVal → Bool
  | arr _ => true
  | _ => false

/-- Indexes a list from `i` on: the own index properties of an array. -/
def indexed : Nat → List JsVal → List (String × JsVal)
  | _, [] => []
  | i, x :: xs => (toString i, x) :: indexed (i + 1) xs

/-- The own enumerable string-keyed properties of a value: the bindings of an
object, the index properties `"0"`, `"1"`, ... of an array, none for the rest. -/
def entries : JsVal → List (String × JsVal)
  | obj kvs => kvs
  | arr xs => indexed 0 xs
  | _ => []

/-- Keeps the first occurrence of every key. -/
def distinctKeys : List String → List String
  | [] => []
  | k :: ks => k :: (distinctKeys ks).filter (fun k2 => k2 != k)

/-- The result of `Object.keys(v)`, up to order (the script only looks at the
keys after filtering, and at `keys[0]` only when a single key is left). -/
def keys (v : JsVal) : List String :=
  distinctKeys (v.entries.map Prod.fst)

/-- Property read `v[k]`, for own properties; `undefined` when absent. -/
def getProp (v : JsVal) (k : String) : JsVal :=
  (v.entries.lookup k).getD undefined

/-- The result of `Object.prototype.hasOwnProperty.call(v, k)` for the keys the
script asks about (never `"length"`). -/
def hasOwnProperty (v : JsVal) (k : String) : Bool :=
  (v.entries.lookup k).isSome

end JsVal

/-! ## Characters and regular expressions -/

/-- The class `\s` of a JavaScript regular expression, which is also the set of
characters `String.prototype.trim` strips: white space and line terminators. -/
def isSpace (c : Char) : Bool :=
  c.toNat == 9 || c.toNat == 10 || c.toNat == 11 || c.toNat == 12 || c.toNat == 13 ||
  c.toNat == 32 || c.toNat == 160 || c.toNat == 5760 ||
  (8192 ≤ c.toNat && c.toNat ≤ 8202) ||
  c.toNat == 8232 || c.toNat == 8233 || c.toNat == 8239 || c.toNat == 8287 ||
  c.toNat == 12288 || c.toNat == 65279

/-- The class `\d`: the ASCII digits. -/
def isDigit (c : Char) : Bool :=
  48 ≤ c.toNat && c.toNat ≤ 57

/-- One item of a regular expression: a character class taken once, `*` or `+`
times, or the end-of-input assertion `$`. -/
inductive RItem where
  | one (cls : Char → Bool) : RItem
  | star (cls : Char → Bool) : RItem
  | plus (cls : Char → Bool) : RItem
  | eos : RItem

/-- Matches `cls*` followed by the continuation `k`, trying every split. -/
def matchStar (cls : Char → Bool) (k : List Char → Bool) : List Char → Bool
  | [] => k []
  | c :: cs => (cls c && matchStar cls k cs) || k (c :: cs)

/-- Whether the items match a prefix of the input (a pattern anchored by `^`). -/
def matchItems : List RItem → List Char → Bool
  | [], _ => true
  | RItem.eos :: rest, cs => cs.isEmpty && matchItems rest cs
  | RItem.one cls :: rest, cs =>
    match cs with
    | [] => false
    | c :: cs2 => cls c && matchItems rest cs2
  | RItem.star cls :: rest, cs => matchStar cls (matchItems rest) cs
  | RItem.plus cls :: rest, cs =>
    match cs with
    | [] => false
    | c :: cs2 => cls c && matchStar cls (matchItems rest) cs2

/-- A literal character as a regular-expression item. -/
def lit (c : Char) : RItem := RItem.one (fun d => d == c)

/-- The pattern `/^\d+$/`. -/
def numericKeyRe : List RItem := [RItem.plus isDigit, RItem.eos]

/-- The pattern `/^\s*\d+\.\s+\S/` of a numbered item. -/
def stepRe : List RItem :=
  [RItem.star isSpace, RItem.plus isDigit, lit '.', RItem.plus isSpace,
   RItem.one (fun c => !isSpace c)]

/-- The pattern `/^\s*\*\*Expected:\*\*\s+\S/`. -/
def expectedRe : List RItem :=
  [RItem.star isSpace, lit '*', lit '*', lit 'E', lit 'x', lit 'p', lit 'e', lit 'c',
   lit 't', lit 'e', lit 'd', lit ':', lit '*', lit '*', RItem.plus isSpace,
   RItem.one (fun c => !isSpace c)]

/-- The result of `re.test(s)`, also whether `s.match(re)` is non-null. -/
def test (re : List RItem) (s : String) : Bool := matchItems re s.data

/-- Whether `s.trim()` is the empty string: `s` has white space only. -/
def trimIsEmpty (s : String) : Bool := s.data.all isSpace

/-! ## Numbers

The step numbers of the script are IEEE doubles. A double that is a
non-negative integer is kept here as that integer (a natural number), and
`2^1024`, which no finite double reaches, stands for `Infinity`. -/

/-- The mathematical value of a string of decimal digits. -/
def decimalValue (cs : List Char) : Nat :=
  cs.foldl (fun acc c => acc * 10 + (c.toNat - 48)) 0

/-- Counts the binary digits of `v`, at most `fuel` of them. -/
def bitsFrom : Nat → Nat → Nat
  | 0, _ => 0
  | fuel + 1, v => if v = 0 then 0 else bitsFrom fuel (v / 2) + 1

/-- The number of binary digits of `v`. -/
def bitLength (v : Nat) : Nat := bitsFrom v v

/-- The double nearest to the natural number `v`, ties going to the even
significand; `2^1024` (for `Infinity`) when `v` is beyond the finite doubles.
Every `v` below `2^53` is a double itself. Above, `v` has `e` bits more than the
53 of a significand: `q` is `v` without its last `e` bits, `r` those bits, and
the result is `q` or `q + 1` followed by `e` zero bits (`n <<< e` is `n * 2^e`
and `n >>> e` is `n / 2^e`). -/
def toDouble (v : Nat) : Nat :=
  if v < 9007199254740992 then v
  else
    let e := bitLength v - 53
    let q := v >>> e
    let r := v - q <<< e
    let half := 1 <<< (e - 1)
    let q2 := if half < r ∨ (r = half ∧ q % 2 = 1) then q + 1 else q
    if 1 <<< 1024 ≤ q2 <<< e then 1 <<< 1024 else q2 <<< e

/-- The value of `Number(k)` for a key `k` matching `/^\d+$/`: the double
nearest to its decimal value. -/
def toNumber (k : String) : Nat :=
  toDouble (decimalValue k.data)

/-- The search of `Number::toString` for the decimal with the fewest significant
digits that converts to the double `x`, which has `d` digits: with `k`
significant digits the two candidates around `x` are tried, the closer one
(the even one on a tie) winning; `k` grows until a candidate converts to `x`. -/
def shortestFrom (x d : Nat) : Nat → Nat → Nat
  | 0, _ => x
  | fuel + 1, k =>
    let p := 10 ^ (d - k)
    let lo := x / p * p
    let hi := lo + p
    if toDouble lo = x ∧ toDouble hi = x then
      if x - lo < hi - x then lo
      else if hi - x < x - lo then hi
      else if (lo / p) % 2 = 0 then lo else hi
    else if toDouble lo = x then lo
    else if toDouble hi = x then hi
    else shortestFrom x d fuel (k + 1)

/-- The decimal with the fewest significant digits that converts to the double
`x`: the digits JavaScript prints for `x`. -/
def shortestDecimal (x : Nat) : Nat :=
  shortestFrom x (Nat.toDigits 10 x).length (Nat.toDigits 10 x).length 1

/-- The digits without the zeros at their end. -/
def stripZeros (cs : List Char) : List Char :=
  (cs.reverse.dropWhile (fun c => c == '0')).reverse

/-- The string of a step number, `String(x)`: plain decimal for an integer below
`2^53`; above, the shortest decimal that converts to the double, written in
full up to 21 digits and as `d.ddde+n` from 22 digits on; `Infinity`. -/
def numberToString (x : Nat) : String :=
  if x < 9007199254740992 then toString x
  else if 1 <<< 1024 ≤ x then "Infinity"
  else
    let s := Nat.toDigits 10 (shortestDecimal x)
    if s.length ≤ 21 then String.mk s
    else
      match stripZeros s with
      | [] => String.mk s
      | [d] => String.mk [d] ++ "e+" ++ toString (s.length - 1)
      | d :: rest => String.mk (d :: '.' :: rest) ++ "e+" ++ toString (s.length - 1)

/-! ## Step-sequence checker -/

/-- The test `typeof v !== "string" || !v.trim()`. -/
def notNonEmptyString (v : JsVal) : Bool :=
  v.typeof != "string" ||
    (match v with
     | JsVal.str a => trimIsEmpty a
     | _ => true)

/-- The body of the loop of `checkSequentialYamlSteps` for one entry `s`: the
diagnostic of the first rule `s` breaks, or the step number pushed to `nums`. -/
def checkStep (filePath : String) (s : JsVal) : Except String Nat :=
  if s.typeof != "object" || !s.truthy then
    Except.error (filePath ++ " - Each entry in \"steps\" must be an object")
  else
    let keys := s.keys.filter (test numericKeyRe)
    if keys.length != 1 then
      Except.error (filePath ++ " - Each step must have exactly one numeric key (e.g., \"1\")")
    else
      let n := toNumber (keys.headD "")
      let action := s.getProp (keys.headD "")
      if notNonEmptyString action then
        Except.error (filePath ++ " - Each step's numeric key must map to a non-empty action")
      else if s.hasOwnProperty "expected" && notNonEmptyString (s.getProp "expected") then
        Except.error (filePath ++ " - If present, \"expected\" must be a non-empty string")
      else
        Except.ok n

/-- The first loop of `checkSequentialYamlSteps`: runs the entries in order,
pushing the step numbers to `nums`, and stops at the first diagnostic. -/
def collectNums (filePath : String) : List JsVal → List Nat → Except String (List Nat)
  | [], nums => Except.ok nums
  | s :: rest, nums =>
    match checkStep filePath s with
    | Except.error msg => Except.error msg
    | Except.ok n => collectNums filePath rest (nums ++ [n])

/-- The second loop: `nums[i] === i + 1` from index `i` on. -/
def sequentialFrom : Nat → List Nat → Bool
  | _, [] => true
  | i, x :: xs => if x != i + 1 then false else sequentialFrom (i + 1) xs

/-- The result of `nums.join(", ")`. -/
def joinNums (nums : List Nat) : String :=
  ", ".intercalate (nums.map numberToString)

/-- The function `checkSequentialYamlSteps(filePath, steps)`. -/
def checkSequentialYamlSteps (filePath : String) (steps : JsVal) : Bool × List String :=
  match steps with
  | JsVal.arr xs =>
    match collectNums filePath xs [] with
    | Except.error msg => (false, [msg])
    | Except.ok nums =>
      let sorted := nums.insertionSort (fun a b => a ≤ b)
      if sequentialFrom 0 sorted then (true, [])
      else (false, [filePath ++ " - Step numbers must be sequential starting at 1 (found "
        ++ joinNums sorted ++ ")"])
  | _ => (true, [])

/-! ## Body-step formatter checker -/

/-- Puts a character in front of the first line. -/
def consHead (c : Char) : List (List Char) → List (List Char)
  | [] => [[c]]
  | l :: ls => (c :: l) :: ls

/-- The result of `body.split(/\r?\n/)` on the characters of the body: a line
ends at `\n`, and a `\r` right before that `\n` belongs to the separator. -/
def splitChars : List Char → List (List Char)
  | [] => [[]]
  | [c] => if c = '\n' then [[], []] else [[c]]
  | c :: d :: cs =>
    if c = '\n' then [] :: splitChars (d :: cs)
    else if c = '\r' ∧ d = '\n' then [] :: splitChars cs
    else consHead c (splitChars (d :: cs))

/-- The lines of a body, `body.split(/\r?\n/)`. -/
def splitLines (body : String) : List String :=
  (splitChars body.data).map String.mk

/-- The counters of `validateBodySteps` and the lines it has written. -/
structure BodyState where
  stepCount : Nat
  errorCount : Nat
  out : List String

/-- The diagnostic of a numbered item at index `i` that has no expectation. -/
def bodyStepMessage (filePath : String) (i : Nat) : String :=
  filePath ++ ":" ++ toString (i + 1) ++
    " - Step is not followed by \"**Expected:** ...\" on the next line"

/-- The loop of `validateBodySteps` from index `i` on, `lines` being what is
left of the array from that index. -/
def bodyLoop (filePath : String) : Nat → List String → BodyState → BodyState
  | _, [], st => st
  | i, line :: rest, st =>
    if test stepRe line then
      let next := rest.headD ""
      if !test expectedRe next then
        bodyLoop filePath (i + 1) rest
          { stepCount := st.stepCount + 1, errorCount := st.errorCount + 1,
            out := st.out ++ [bodyStepMessage filePath i] }
      else
        bodyLoop filePath (i + 1) rest { st with stepCount := st.stepCount + 1 }
    else
      bodyLoop filePath (i + 1) rest st

/-- The function `validateBodySteps(filePath, body, { requireSteps })`. -/
def validateBodySteps (filePath body : String) (requireSteps : Bool) : Bool × List String :=
  let st := bodyLoop filePath 0 (splitLines body) { stepCount := 0, errorCount := 0, out := [] }
  let st2 : BodyState :=
    if requireSteps && st.stepCount == 0 then
      { st with errorCount := st.errorCount + 1,
                out := st.out ++ [filePath ++ " - No numbered steps found (e.g., \"1. ...\")"] }
    else st
  (st2.errorCount == 0, st2.out)

/-! ## Filename/id checker -/

/-- Modelled from the spec: `base` is the path's filename without extension.
The script computes it with `path.basename(p, path.extname(p))` of the Node
library, which is not part of the repository. This is the last component of
the path, trailing `/` ignored. -/
def lastComponent (p : List Char) : List Char :=
  (((p.reverse.dropWhile (fun c => c == '/')).takeWhile (fun c => c != '/'))).reverse

/-- Modelled from the spec: the extension that `path.extname` of the Node
library (not part of the repository) gives: from the last `.` of the last
component to its end, and empty when there is no `.`, when the last `.` is the
first character of the component, or when the component is `..`. -/
def extname (p : String) : String :=
  let comp := lastComponent p.data
  let stem := (comp.reverse.dropWhile (fun c => c != '.')).drop 1
  if comp.all (fun c => c != '.') || stem.isEmpty || comp == ['.', '.'] then ""
  else String.mk (comp.drop stem.length)

/-- Modelled from the spec: the result of `path.basename(p, suffix)` of the Node
library (not part of the repository): the last component of the path, without
`suffix` when the component ends with it and is longer than it. -/
def basename (p suffix : String) : String :=
  let comp := lastComponent p.data
  if suffix.length > 0 && suffix == p then ""
  else if suffix.length > 0 && suffix.length < comp.length &&
      comp.drop (comp.length - suffix.length) == suffix.data then
    String.mk (comp.take (comp.length - suffix.length))
  else String.mk comp

/-- The result of `base.startsWith(s)`. -/
def startsWith (base s : String) : Bool := s.data.isPrefixOf base.data

/-- The function `validateFilenameMatchesId(filePath, id)`. -/
def validateFilenameMatchesId (filePath id : String) : Bool × List String :=
  let base := basename filePath (extname filePath)
  if base != id && !startsWith base (id ++ "-") then
    (false, [filePath ++ " - Filename should equal the id or start with it (expected starts with \""
      ++ id ++ "\")"])
  else (true, [])

/-! ## Schema errors -/

/-- An error record of the schema validator, with the fields the script reads:
`instancePath`, `message` and `params.additionalProperty` (absent: `none`). -/
structure AjvError where
  instancePath : String
  message : String
  additionalProperty : Option String

/-- The line `printAjvErrors` writes for one error record. -/
def ajvErrorLine (err : AjvError) : String :=
  let place := if err.instancePath != "" then err.instancePath else "(root)"
  let extra :=
    match err.additionalProperty with
    | some name => if name != "" then " [additionalProperty=" ++ name ++ "]" else ""
    | none => ""
  "  " ++ place ++ " " ++ err.message ++ extra

/-- The function `printAjvErrors(file, errors)`: the lines it writes. -/
def printAjvErrors (file : String) (errors : List AjvError) : List String :=
  (file ++ " - Front matter schema errors:") :: errors.map ajvErrorLine

/-! ## Orchestrator -/

/-- What a call `validate(data)` of the compiled schema leaves: its boolean
result and `validate.errors` (`null`, here `none`, or an array). -/
structure AjvOutcome where
  ok : Bool
  errors : Option (List AjvError)

/-- A file of the corpus after `matter(raw)`: its path, `fm.data` and
`fm.content`. -/
structure TestCase where
  file : String
  data : JsVal
  content : String

/-- The observable state of the process: the lines written to the error and the
output streams, and `process.exitCode` (`none` while it is `undefined`). -/
structure Proc where
  stderr : List String
  stdout : List String
  exitCode : Option Nat

/-- The state in which `main` starts. -/
def Proc.init : Proc := { stderr := [], stdout := [], exitCode := none }

/-- Writes the lines of a check and sets `process.exitCode = 1` when the check
returned false. -/
def Proc.record (p : Proc) (r : Bool × List String) : Proc :=
  { p with stderr := p.stderr ++ r.2, exitCode := if r.1 then p.exitCode else some 1 }

/-- The body of the `for (const file of files)` loop of `main`. -/
def processFile (validate : JsVal → AjvOutcome) (p : Proc) (t : TestCase) : Proc :=
  let res := validate t.data
  if !res.ok then
    { p with stderr := p.stderr ++ printAjvErrors t.file (res.errors.getD []),
             exitCode := some 1 }
  else
    let p1 :=
      match t.data.getProp "id" with
      | JsVal.str id => p.record (validateFilenameMatchesId t.file id)
      | _ => p
    let p2 :=
      if (t.data.getProp "steps").truthy then
        p1.record (checkSequentialYamlSteps t.file (t.data.getProp "steps"))
      else p1
    p2.record (validateBodySteps t.file t.content false)

/-- The outcome of a run: both streams and the exit status of the process. -/
structure RunResult where
  stderr : List String
  stdout : List String
  status : Nat

/-- The end of `main`: exit with `process.exitCode` when it is set and not 0,
otherwise write the summary line and finish with status 0. -/
def finish (p : Proc) : RunResult :=
  match p.exitCode with
  | some (n + 1) => { stderr := p.stderr, stdout := p.stdout, status := n + 1 }
  | _ => { stderr := p.stderr, stdout := p.stdout ++ ["All test cases passed validation."],
           status := 0 }

/-- The function `main` on the files found, in discovery order, for the compiled
schema `validate`. -/
def main (validate : JsVal → AjvOutcome) (files : List TestCase) : RunResult :=
  finish (files.foldl (processFile validate) Proc.init)

/-! ## Vocabulary of the properties -/

/-- A string with at least one character that is not white space. -/
def NonBlankString (v : JsVal) : Prop :=
  ∃ a, v = JsVal.str a ∧ ∃ c ∈ a.data, isSpace c = false

/-- The keys of a step entry matching `^\d+$`. -/
def numericKeys (s : JsVal) : List String :=
  s.keys.filter (test numericKeyRe)

/-- A structurally valid step: a non-null object with exactly one key matching
`^\d+$`, whose value is a string with a non-white-space character, and whose
`expected`, when present, is such a string too. -/
def StructValid (s : JsVal) : Prop :=
  (s.typeof = "object" ∧ s ≠ JsVal.null) ∧
  (∃ k, numericKeys s = [k] ∧ NonBlankString (s.getProp k)) ∧
  (s.hasOwnProperty "expected" = true → NonBlankString (s.getProp "expected"))

/-- A step entry breaking a structural rule: it is not a non-null object; or it
has zero or more than one key matching `^\d+$`; or the value of its numeric key
is not a string with a non-white-space character; or it has an own `expected`
key whose value is not such a string. -/
def Violation (s : JsVal) : Prop :=
  ¬ (s.typeof = "object" ∧ s ≠ JsVal.null) ∨
  (numericKeys s).length ≠ 1 ∨
  ¬ NonBlankString (s.getProp ((numericKeys s).headD "")) ∨
  (s.hasOwnProperty "expected" = true ∧ ¬ NonBlankString (s.getProp "expected"))

/-- The sequence diagnostic of `checkSequentialYamlSteps` for the numbers `nums`. -/
def sequenceMessage (filePath : String) (nums : List Nat) : String :=
  filePath ++ " - Step numbers must be sequential starting at 1 (found " ++ joinNums nums ++ ")"

/-- The number of a step: the numeric value of its key matching `^\d+$`. -/
def stepNumber (s : JsVal) : Nat :=
  toNumber ((numericKeys s).headD "")

/-- Whether the line at index `i` of `lines` is a numbered item whose next line
(the empty string after the last line) is not an expectation. -/
def unpairedAt (lines : List String) (i : Nat) : Bool :=
  test stepRe (lines.getD i "") && !test expectedRe (lines.getD (i + 1) "")

/-- The number of lines of a body that are numbered items. -/
def stepLineCount (body : String) : Nat :=
  ((splitLines body).filter (test stepRe)).length

/-- The document-level diagnostic of `validateBodySteps`, without line number. -/
def noStepsMessage (filePath : String) : String :=
  filePath ++ " - No numbered steps found (e.g., \"1. ...\")"

/-- The bindings of an object with the key `k` written as `k2` instead. -/
def renameKey (k k2 : String) (kvs : List (String × JsVal)) : List (String × JsVal) :=
  kvs.map (fun p => if p.1 = k then (k2, p.2) else p)

/-- The key `k` with `zeros` additional leading zeros. -/
def padKey (zeros : Nat) (k : String) : String :=
  String.mk (List.replicate zeros '0' ++ k.data)

/-- The lines of a text made of two parts, from the lines of the parts: the last
line of the first part and the first line of the second part are one line. -/
def glue : List (List Char) → List (List Char) → List (List Char)
  | [], ls => ls
  | [x], ls => (x ++ ls.headD []) :: ls.tail
  | x :: y :: rest, ls => x :: glue (y :: rest) ls

/-- The text that stands on the last line of `p`: what precedes, on its line, a
character put right after `p`. -/
def lineStart (p : List Char) : List Char :=
  (splitChars p).getLastD []

/-- The two tests `validateBodySteps` makes on a line. -/
def lineFlags (l : List Char) : Bool × Bool :=
  (matchItems stepRe l, matchItems expectedRe l)

/-- The parts joined with `sep` between them. -/
def joinChars (sep : List Char) : List (List Char) → List Char
  | [] => []
  | [l] => l
  | l :: m :: rest => l ++ sep ++ joinChars sep (m :: rest)

/-- A body made of `lines` with the line ending `sep` between them. -/
def joinLines (sep : String) (lines : List String) : String :=
  String.mk (joinChars sep.data (lines.map String.data))

/-- A line without a line-feed or carriage-return character. -/
def NoLineBreak (l : String) : Prop :=
  ∀ c ∈ l.data, c ≠ '\n' ∧ c ≠ '\r'

/-- The identity check of a document: `validateFilenameMatchesId` on its path
and `id` when `id` is a string, and a pass without diagnostic otherwise. -/
def idResult (t : TestCase) : Bool × List String :=
  match t.data.getProp "id" with
  | JsVal.str id => validateFilenameMatchesId t.file id
  | _ => (true, [])

/-- The step-sequence check of a document: `checkSequentialYamlSteps` on the
value of `steps` when the front matter has that field, and a pass without
diagnostic otherwise. -/
def stepsResult (t : TestCase) : Bool × List String :=
  if t.data.hasOwnProperty "steps" then
    checkSequentialYamlSteps t.file (t.data.getProp "steps")
  else (true, [])

/-- The body-step check of a document, with `requireSteps = false`. -/
def bodyResult (t : TestCase) : Bool × List String :=
  validateBodySteps t.file t.content false

/-- The lines `main` writes to the error stream for one document. -/
def fileLines (validate : JsVal → AjvOutcome) (t : TestCase) : List String :=
  (processFile validate Proc.init t).stderr

/-- A document that passes schema validation and every applicable check. -/
def Passes (validate : JsVal → AjvOutcome) (t : TestCase) : Prop :=
  (validate t.data).ok = true ∧ (idResult t).1 = true ∧ (stepsResult t).1 = true ∧
    (bodyResult t).1 = true

/-- The guarded call of `main`: `if (data.steps) { checkSequentialYamlSteps(file,
data.steps) }`, a pass without diagnostic when the value is falsy. -/
def guardedSteps (filePath : String) (v : JsVal) : Bool × List String :=
  if v.truthy then checkSequentialYamlSteps filePath v else (true, [])

/-- A compiled schema that accepts every front matter. -/
def acceptAll : JsVal → AjvOutcome :=
  fun _ => { ok := true, errors := none }

/-- A compiled schema that requires the property `id` and nothing else. -/
def requireId : JsVal → AjvOutcome :=
  fun v =>
    if v.hasOwnProperty "id" then { ok := true, errors := none }
    else { ok := false, errors := some [⟨"", "must have required property id", none⟩] }

/-- A document without `id`, with a malformed `steps` field and an unpaired
numbered item in its body. -/
def docWithoutId : TestCase :=
  { file := "a.md", data := JsVal.obj [("steps", JsVal.arr [JsVal.null])], content := "1. a\nno" }

/-- A document whose `id` is not reflected in its file name, whose `steps` skip
a number and whose body has an unpaired numbered item. -/
def docAllWrong : TestCase :=
  { file := "b.md",
    data := JsVal.obj [("id", JsVal.str "c"), ("steps", JsVal.arr [JsVal.obj [("2", JsVal.str "x")]])],
    content := "1. a" }

/-- A document that passes every check. -/
def docFine : TestCase :=
  { file := "tc/d-login.md",
    data := JsVal.obj [("id", JsVal.str "d"), ("steps", JsVal.arr [JsVal.obj [("1", JsVal.str "x")]])],
    content := "1. a\n**Expected:** b\n" }

instance (validate : JsVal → AjvOutcome) (t : TestCase) : Decidable (Passes validate t) := by
  unfold Passes
  infer_instance

/-! ## Properties of the step-sequence checker -/

theorem notNonEmptyString_eq_false (v : JsVal) :
    notNonEmptyString v = false ↔ NonBlankString v := by
  cases v <;> simp [notNonEmptyString, NonBlankString, JsVal.typeof, trimIsEmpty]

theorem typeof_object_iff (s : JsVal) :
    (s.typeof != "object" || !s.truthy) = false ↔ (s.typeof = "object" ∧ s ≠ JsVal.null) := by
  cases s <;> simp [JsVal.typeof, JsVal.truthy]

theorem checkStep_of_valid (f : String) (s : JsVal) (h : StructValid s) :
    checkStep f s = Except.ok (stepNumber s) := by
  obtain ⟨h1, ⟨k, hk, ha⟩, he⟩ := h
  have h1b := (typeof_object_iff s).2 h1
  have hk2 : List.filter (test numericKeyRe) s.keys = [k] := hk
  have ha2 := (notNonEmptyString_eq_false _).2 ha
  unfold checkStep
  rw [if_neg (by simp [h1b])]
  simp only [hk2, List.length_singleton, bne_self_eq_false, Bool.false_eq_true, if_false,
    List.headD_cons, ha2]
  cases hx : s.hasOwnProperty "expected"
  · simp [stepNumber, numericKeys, hk2]
  · have := (notNonEmptyString_eq_false _).2 (he hx)
    simp [this, stepNumber, numericKeys, hk2]

theorem checkStep_ok_valid (f : String) (s : JsVal) (n : Nat)
    (h : checkStep f s = Except.ok n) : StructValid s := by
  unfold checkStep at h
  split at h
  · cases h
  · rename_i h1
    simp only [] at h
    split at h
    · cases h
    · rename_i h2
      split at h
      · cases h
      · rename_i h3
        split at h
        · cases h
        · rename_i h4
          refine ⟨(typeof_object_iff s).1 (by simpa using h1), ?_, ?_⟩
          · have hl : (List.filter (test numericKeyRe) s.keys).length = 1 := by simpa using h2
            obtain ⟨k, hk⟩ := List.length_eq_one.1 hl
            refine ⟨k, hk, ?_⟩
            rw [hk] at h3
            exact (notNonEmptyString_eq_false _).1 (by simpa using h3)
          · intro hx
            exact (notNonEmptyString_eq_false _).1 (by simpa [hx] using h4)

theorem checkStep_of_invalid (f : String) (s : JsVal) (h : ¬ StructValid s) :
    ∃ msg, checkStep f s = Except.error msg := by
  cases hc : checkStep f s with
  | error msg => exact ⟨msg, rfl⟩
  | ok n => exact absurd (checkStep_ok_valid f s n hc) h

theorem collectNums_of_valid (f : String) (xs : List JsVal) (acc : List Nat)
    (h : ∀ s ∈ xs, StructValid s) :
    collectNums f xs acc = Except.ok (acc ++ xs.map stepNumber) := by
  induction xs generalizing acc with
  | nil => simp [collectNums]
  | cons s rest ih =>
    have hs := checkStep_of_valid f s (h s (List.mem_cons_self _ _))
    simp only [collectNums, hs]
    rw [ih _ (fun t ht => h t (List.mem_cons_of_mem _ ht))]
    simp

theorem collectNums_first_error (f : String) (pre post : List JsVal) (bad : JsVal)
    (msg : String) (acc : List Nat) (hpre : ∀ s ∈ pre, StructValid s)
    (hbad : checkStep f bad = Except.error msg) :
    collectNums f (pre ++ bad :: post) acc = Except.error msg := by
  induction pre generalizing acc with
  | nil => simp [collectNums, hbad]
  | cons s rest ih =>
    have hs := checkStep_of_valid f s (hpre s (List.mem_cons_self _ _))
    simp only [List.cons_append, collectNums, hs]
    exact ih _ (fun t ht => hpre t (List.mem_cons_of_mem _ ht))

/-- Splits a list at its first structurally invalid entry. -/
theorem exists_first_invalid (xs : List JsVal) (h : ∃ s ∈ xs, ¬ StructValid s) :
    ∃ pre bad post, xs = pre ++ bad :: post ∧ (∀ s ∈ pre, StructValid s) ∧
      ¬ StructValid bad := by
  induction xs with
  | nil => simp at h
  | cons s rest ih =>
    by_cases hs : StructValid s
    · have h2 : ∃ t ∈ rest, ¬ StructValid t := by
        obtain ⟨t, ht, hv⟩ := h
        rcases List.mem_cons.1 ht with rfl | ht
        · exact absurd hs hv
        · exact ⟨t, ht, hv⟩
      obtain ⟨pre, bad, post, he, hp, hb⟩ := ih h2
      refine ⟨s :: pre, bad, post, by simp [he], ?_, hb⟩
      intro t ht
      rcases List.mem_cons.1 ht with rfl | ht
      · exact hs
      · exact hp t ht
    · exact ⟨[], s, rest, rfl, by simp, hs⟩

theorem sequentialFrom_iff (i : Nat) (xs : List Nat) :
    sequentialFrom i xs = true ↔ xs = List.range' (i + 1) xs.length := by
  induction xs generalizing i with
  | nil => simp [sequentialFrom]
  | cons x rest ih =>
    simp only [sequentialFrom, List.length_cons, List.range'_succ, List.cons.injEq]
    by_cases hx : x = i + 1
    · simp [hx, ih]
    · simp [hx]

theorem sorted_sequential_iff (nums : List Nat) :
    sequentialFrom 0 (nums.insertionSort (fun a b => a ≤ b)) = true ↔
      nums.Perm (List.range' 1 nums.length) := by
  rw [sequentialFrom_iff]
  simp only [List.length_insertionSort, Nat.zero_add]
  constructor
  · intro h
    have hp := List.perm_insertionSort (fun a b : Nat => a ≤ b) nums
    rw [h] at hp
    exact hp.symm
  · intro h
    have hp := (List.perm_insertionSort (fun a b : Nat => a ≤ b) nums).trans h
    have hs1 := List.sorted_insertionSort (fun a b : Nat => a ≤ b) nums
    have hs2 : (List.range' 1 nums.length).Sorted (fun a b : Nat => a ≤ b) :=
      List.pairwise_le_range' 1 nums.length
    exact List.eq_of_perm_of_sorted hp hs1 hs2

theorem violation_iff (s : JsVal) : Violation s ↔ ¬ StructValid s := by
  unfold Violation StructValid
  constructor
  · rintro (h | h | h | ⟨h1, h2⟩) ⟨hobj, ⟨k, hk, ha⟩, he⟩
    · exact h hobj
    · exact h (by simp [hk])
    · exact h (by simpa [hk] using ha)
    · exact h2 (he h1)
  · intro h
    by_contra hc
    obtain ⟨h1, hc⟩ := not_or.1 hc
    obtain ⟨h2, hc⟩ := not_or.1 hc
    obtain ⟨h3, h4⟩ := not_or.1 hc
    obtain ⟨k, hk⟩ := List.length_eq_one.1 (not_not.1 h2)
    exact h ⟨not_not.1 h1, ⟨k, hk, by simpa [hk] using not_not.1 h3⟩,
      fun hx => by_contra (fun hn => h4 ⟨hx, hn⟩)⟩

theorem string_append_left_cancel (f a b : String) (h : f ++ a = f ++ b) : a = b := by
  have := congrArg String.data h
  simp only [String.data_append] at this
  exact String.ext (List.append_cancel_left this)

theorem checkStep_error_ne_sequence (f : String) (s : JsVal) (msg : String) (nums : List Nat)
    (h : checkStep f s = Except.error msg) : msg ≠ sequenceMessage f nums := by
  have hne : ∀ a : String, a.data.get? 3 ≠ some 'S' →
      f ++ a ≠ sequenceMessage f nums := by
    intro a ha he
    unfold sequenceMessage at he
    rw [String.append_assoc, String.append_assoc] at he
    have := congrArg String.data (string_append_left_cancel _ _ _ he)
    rw [this] at ha
    simp [String.data_append] at ha
  unfold checkStep at h
  split at h
  · cases h; exact hne _ (by decide)
  · simp only [] at h
    split at h
    · cases h; exact hne _ (by decide)
    · split at h
      · cases h; exact hne _ (by decide)
      · split at h
        · cases h; exact hne _ (by decide)
        · cases h

theorem checkSequentialYamlSteps_of_valid (f : String) (xs : List JsVal)
    (h : ∀ s ∈ xs, StructValid s) :
    checkSequentialYamlSteps f (JsVal.arr xs) =
      if sequentialFrom 0 ((xs.map stepNumber).insertionSort (fun a b => a ≤ b)) then (true, [])
      else (false, [sequenceMessage f ((xs.map stepNumber).insertionSort (fun a b => a ≤ b))]) := by
  simp only [checkSequentialYamlSteps, collectNums_of_valid f xs [] h, List.nil_append,
    sequenceMessage]

theorem checkSequentialYamlSteps_of_invalid (f : String) (pre post : List JsVal) (bad : JsVal)
    (msg : String) (hpre : ∀ s ∈ pre, StructValid s)
    (hbad : checkStep f bad = Except.error msg) :
    checkSequentialYamlSteps f (JsVal.arr (pre ++ bad :: post)) = (false, [msg]) := by
  simp only [checkSequentialYamlSteps, collectNums_first_error f pre post bad msg [] hpre hbad]

/-- C1: on an array of structurally valid step objects, `checkSequentialYamlSteps`
returns true exactly when the numeric values of the keys are, in some order,
1, 2, ..., n for n the length of the array; the empty array is valid. -/
theorem checkSequentialYamlSteps_true_iff_perm (f : String) (xs : List JsVal)
    (h : ∀ s ∈ xs, StructValid s) :
    ((checkSequentialYamlSteps f (JsVal.arr xs)).1 = true ↔
      (xs.map stepNumber).Perm (List.range' 1 xs.length)) ∧
    (checkSequentialYamlSteps f (JsVal.arr [])).1 = true := by
  refine ⟨?_, by simp [checkSequentialYamlSteps, collectNums, sequentialFrom]⟩
  rw [checkSequentialYamlSteps_of_valid f xs h]
  have hs := sorted_sequential_iff (xs.map stepNumber)
  rw [List.length_map] at hs
  rw [← hs]
  split <;> simp_all

theorem checkSequentialYamlSteps_true_iff_perm_witness :
    ((checkSequentialYamlSteps "a.md" (JsVal.arr
        [JsVal.obj [("2", JsVal.str "b")],
         JsVal.obj [("1", JsVal.str "a"), ("expected", JsVal.str "x")]])).1 = true ↔
      ([JsVal.obj [("2", JsVal.str "b")],
        JsVal.obj [("1", JsVal.str "a"), ("expected", JsVal.str "x")]].map stepNumber).Perm
        (List.range' 1 2)) ∧
    (checkSequentialYamlSteps "a.md" (JsVal.arr [])).1 = true :=
  checkSequentialYamlSteps_true_iff_perm "a.md"
    [JsVal.obj [("2", JsVal.str "b")],
     JsVal.obj [("1", JsVal.str "a"), ("expected", JsVal.str "x")]]
    (fun s hs => by
      rcases List.mem_pair.1 hs with rfl | rfl
      · exact checkStep_ok_valid "" _ 2 rfl
      · exact checkStep_ok_valid "" _ 1 rfl)

/-- C2: an array with at least one entry breaking a structural rule makes
`checkSequentialYamlSteps` return false, wherever the entry stands and whatever
the other entries are. -/
theorem checkSequentialYamlSteps_false_of_violation (f : String) (xs : List JsVal)
    (h : ∃ s ∈ xs, Violation s) :
    (checkSequentialYamlSteps f (JsVal.arr xs)).1 = false := by
  obtain ⟨s, hs, hv⟩ := h
  obtain ⟨pre, bad, post, he, hp, hb⟩ :=
    exists_first_invalid xs ⟨s, hs, (violation_iff s).1 hv⟩
  obtain ⟨msg, hm⟩ := checkStep_of_invalid f bad hb
  rw [he, checkSequentialYamlSteps_of_invalid f pre post bad msg hp hm]

theorem checkSequentialYamlSteps_false_of_violation_witness :
    (checkSequentialYamlSteps "a.md" (JsVal.arr
      [JsVal.obj [("1", JsVal.str "a")], JsVal.obj [("2", JsVal.str "  ")],
       JsVal.obj [("3", JsVal.str "c")]])).1 = false :=
  checkSequentialYamlSteps_false_of_violation "a.md"
    [JsVal.obj [("1", JsVal.str "a")], JsVal.obj [("2", JsVal.str "  ")],
     JsVal.obj [("3", JsVal.str "c")]]
    ⟨JsVal.obj [("2", JsVal.str "  ")], by simp,
      Or.inr (Or.inr (Or.inl (by
        rintro ⟨a, ha, c, hc, hsp⟩
        have ha2 : a = "  " := by
          have : JsVal.str "  " = JsVal.str a := ha
          exact (JsVal.str.inj this).symm
        subst ha2
        have hc2 : c = ' ' := by simpa using hc
        subst hc2
        exact absurd hsp (by decide))))⟩

/-- C10: `checkSequentialYamlSteps` writes at most one diagnostic, exactly one
when it returns false and none when it returns true; with an invalid entry the
diagnostic is that of the first invalid entry in array order; and a sequence
diagnostic is written only when every entry is structurally valid. -/
theorem checkSequentialYamlSteps_short_circuits (f : String) :
    (∀ steps : JsVal,
      (checkSequentialYamlSteps f steps).2.length ≤ 1 ∧
      ((checkSequentialYamlSteps f steps).1 = false →
        (checkSequentialYamlSteps f steps).2.length = 1) ∧
      ((checkSequentialYamlSteps f steps).1 = true →
        (checkSequentialYamlSteps f steps).2 = [])) ∧
    (∀ (pre post : List JsVal) (bad : JsVal),
      (∀ s ∈ pre, StructValid s) → ¬ StructValid bad →
        ∃ msg, checkStep f bad = Except.error msg ∧
          checkSequentialYamlSteps f (JsVal.arr (pre ++ bad :: post)) = (false, [msg])) ∧
    (∀ (xs : List JsVal) (nums : List Nat),
      sequenceMessage f nums ∈ (checkSequentialYamlSteps f (JsVal.arr xs)).2 →
        ∀ s ∈ xs, StructValid s) := by
  refine ⟨?_, ?_, ?_⟩
  · intro steps
    unfold checkSequentialYamlSteps
    split
    · split
      · simp
      · simp only []
        split <;> simp
    · simp
  · intro pre post bad hpre hbad
    obtain ⟨msg, hm⟩ := checkStep_of_invalid f bad hbad
    exact ⟨msg, hm, checkSequentialYamlSteps_of_invalid f pre post bad msg hpre hm⟩
  · intro xs nums hmem
    by_contra hall
    have hex : ∃ s ∈ xs, ¬ StructValid s := by
      by_contra hno
      exact hall (fun s hs => by_contra (fun hn => hno ⟨s, hs, hn⟩))
    obtain ⟨pre, bad, post, he, hp, hb⟩ := exists_first_invalid xs hex
    obtain ⟨msg, hm⟩ := checkStep_of_invalid f bad hb
    rw [he, checkSequentialYamlSteps_of_invalid f pre post bad msg hp hm] at hmem
    have : sequenceMessage f nums = msg := by simpa using hmem
    exact checkStep_error_ne_sequence f bad msg nums hm this.symm

theorem checkSequentialYamlSteps_short_circuits_witness :
    ∃ msg, checkStep "a.md" (JsVal.num 7) = Except.error msg ∧
      checkSequentialYamlSteps "a.md" (JsVal.arr
        ([JsVal.obj [("1", JsVal.str "a")]] ++ JsVal.num 7 :: [JsVal.null])) = (false, [msg]) :=
  (checkSequentialYamlSteps_short_circuits "a.md").2.1
    [JsVal.obj [("1", JsVal.str "a")]] [JsVal.null] (JsVal.num 7)
    (fun s hs => by
      rw [List.mem_singleton.1 hs]
      exact checkStep_ok_valid "" _ 1 rfl)
    (fun hv => absurd hv.1.1 (by decide))

/-! ## Properties of the body-step formatter checker -/

theorem headD_drop (L : List String) (i : Nat) :
    (L.drop i).headD "" = L.getD i "" := by
  induction L generalizing i with
  | nil => simp
  | cons a rest ih =>
    cases i with
    | zero => simp
    | succ j => simp

theorem bodyLoop_drop (f : String) (L : List String) (n i : Nat) (st : BodyState)
    (hn : n = L.length - i) :
    bodyLoop f i (L.drop i) st =
      { stepCount := st.stepCount +
          ((List.range' i n).filter (fun j => test stepRe (L.getD j ""))).length,
        errorCount := st.errorCount + ((List.range' i n).filter (unpairedAt L)).length,
        out := st.out ++ ((List.range' i n).filter (unpairedAt L)).map (bodyStepMessage f) } := by
  induction n generalizing i st with
  | zero =>
    have : L.drop i = [] := List.drop_eq_nil_of_le (by omega)
    simp [this, bodyLoop]
  | succ m ih =>
    have hi : i < L.length := by omega
    have hd : L.drop i = L[i] :: L.drop (i + 1) := List.drop_eq_getElem_cons hi
    have hg : L.getD i "" = L[i] := by simp [List.getD_eq_getElem?_getD, hi]
    rw [hd, List.range'_succ]
    simp only [bodyLoop, headD_drop, List.filter_cons, unpairedAt, hg]
    by_cases h1 : test stepRe L[i] = true
    · by_cases h2 : test expectedRe (L.getD (i + 1) "") = true
      · simp only [h1, h2, if_true, Bool.not_true, Bool.false_eq_true, if_false, Bool.and_false]
        rw [ih (i + 1) _ (by omega)]
        simp [unpairedAt, Nat.add_assoc, Nat.add_comm 1]
      · simp only [h1, h2, if_true, Bool.not_false, Bool.not_eq_true] at *
        simp only [h2, Bool.not_false, if_true, Bool.and_true]
        rw [ih (i + 1) _ (by omega)]
        simp [unpairedAt, Nat.add_assoc, Nat.add_comm 1]
    · simp only [h1, Bool.false_eq_true, if_false, Bool.false_and]
      rw [ih (i + 1) _ (by omega)]

theorem validateBodySteps_eq (f body : String) (requireSteps : Bool) :
    validateBodySteps f body requireSteps =
      let L := splitLines body
      let errs := ((List.range L.length).filter (unpairedAt L)).map (bodyStepMessage f)
      if requireSteps && ((List.range L.length).filter
          (fun j => test stepRe (L.getD j ""))).length == 0 then
        (false, errs ++ [f ++ " - No numbered steps found (e.g., \"1. ...\")"])
      else (errs.isEmpty, errs) := by
  have h := bodyLoop_drop f (splitLines body) (splitLines body).length 0
    { stepCount := 0, errorCount := 0, out := [] } (by simp)
  simp only [List.drop_zero] at h
  simp only [validateBodySteps, h, List.range_eq_range', Nat.zero_add, List.nil_append]
  split
  · simp
  · generalize List.filter (unpairedAt (splitLines body))
      (List.range' 0 (splitLines body).length) = es
    cases es <;> simp

/-- C3: with `requireSteps = false`, `validateBodySteps` writes exactly one
diagnostic for every index `i` whose line is a numbered item not followed by an
expectation line, tagged with the line number `i + 1`, in increasing order of
`i`, and nothing else; it returns true exactly when it wrote none. A paired
item gives no error, an item followed by another line gives one at its line. -/
theorem validateBodySteps_collects_all (f body : String) :
    (validateBodySteps f body false).2 =
        ((List.range (splitLines body).length).filter (unpairedAt (splitLines body))).map
          (fun i => f ++ ":" ++ toString (i + 1) ++
            " - Step is not followed by \"**Expected:** ...\" on the next line") ∧
    ((validateBodySteps f body false).1 = true ↔ (validateBodySteps f body false).2 = []) ∧
    ((validateBodySteps f body false).2 = [] ↔
      ∀ i, i < (splitLines body).length → unpairedAt (splitLines body) i = false) ∧
    validateBodySteps f "1. Click button\n**Expected:** Button responds\n" false = (true, []) ∧
    validateBodySteps f "1. Click button\nSomething else\n" false =
      (false, [f ++ ":1 - Step is not followed by \"**Expected:** ...\" on the next line"]) := by
  refine ⟨?_, ?_, ?_, rfl, ?_⟩
  · rw [validateBodySteps_eq]
    rfl
  · rw [validateBodySteps_eq]
    simp [List.isEmpty_iff]
  · rw [validateBodySteps_eq]
    simp [List.filter_eq_nil_iff]
  · have : validateBodySteps f "1. Click button\nSomething else\n" false =
        (false, [bodyStepMessage f 0]) := rfl
    rw [this, bodyStepMessage]
    have h1 : toString (0 + 1) = "1" := rfl
    rw [h1, String.append_assoc, String.append_assoc]
    rfl

theorem splitChars_lf (cs : List Char) : splitChars ('\n' :: cs) = [] :: splitChars cs := by
  cases cs <;> simp [splitChars]

theorem splitChars_crlf (cs : List Char) :
    splitChars ('\r' :: '\n' :: cs) = [] :: splitChars cs := by
  simp [splitChars]

theorem splitChars_plain (c : Char) (cs : List Char) (h1 : c ≠ '\n') (h2 : c ≠ '\r') :
    splitChars (c :: cs) = consHead c (splitChars cs) := by
  cases cs <;> simp [splitChars, h1, h2, consHead]

theorem splitChars_line_lf (l rest : List Char) (h : ∀ c ∈ l, c ≠ '\n' ∧ c ≠ '\r') :
    splitChars (l ++ '\n' :: rest) = l :: splitChars rest := by
  induction l with
  | nil => simpa using splitChars_lf rest
  | cons c l ih =>
    have hc := h c (List.mem_cons_self _ _)
    rw [List.cons_append, splitChars_plain c _ hc.1 hc.2,
      ih (fun d hd => h d (List.mem_cons_of_mem _ hd))]
    rfl

theorem splitChars_line_crlf (l rest : List Char) (h : ∀ c ∈ l, c ≠ '\n' ∧ c ≠ '\r') :
    splitChars (l ++ '\r' :: '\n' :: rest) = l :: splitChars rest := by
  induction l with
  | nil => simpa using splitChars_crlf rest
  | cons c l ih =>
    have hc := h c (List.mem_cons_self _ _)
    rw [List.cons_append, splitChars_plain c _ hc.1 hc.2,
      ih (fun d hd => h d (List.mem_cons_of_mem _ hd))]
    rfl

/-- A text without a line feed is a single line, carriage returns included. -/
theorem splitChars_no_lf (l : List Char) (h : ∀ c ∈ l, c ≠ '\n') : splitChars l = [l] := by
  induction l with
  | nil => rfl
  | cons c l ih =>
    have hc := h c (List.mem_cons_self _ _)
    have ih2 := ih (fun d hd => h d (List.mem_cons_of_mem _ hd))
    cases l with
    | nil => simp [splitChars, hc]
    | cons d l2 =>
      have hd := h d (by simp)
      simp [splitChars, hc, hd, ih2, consHead]

theorem splitChars_join_lf (ls : List (List Char)) (hne : ls ≠ [])
    (h : ∀ l ∈ ls, ∀ c ∈ l, c ≠ '\n' ∧ c ≠ '\r') :
    splitChars (joinChars ['\n'] ls) = ls := by
  induction ls with
  | nil => exact absurd rfl hne
  | cons l rest ih =>
    cases rest with
    | nil =>
      simp only [joinChars]
      exact splitChars_no_lf l (fun c hc => (h l (by simp) c hc).1)
    | cons m rest2 =>
      simp only [joinChars, List.append_assoc, List.singleton_append]
      rw [splitChars_line_lf l _ (h l (by simp)),
        ih (by simp) (fun l2 hl2 => h l2 (List.mem_cons_of_mem _ hl2))]

theorem splitChars_join_crlf (ls : List (List Char)) (hne : ls ≠ [])
    (h : ∀ l ∈ ls, ∀ c ∈ l, c ≠ '\n' ∧ c ≠ '\r') :
    splitChars (joinChars ['\r', '\n'] ls) = ls := by
  induction ls with
  | nil => exact absurd rfl hne
  | cons l rest ih =>
    cases rest with
    | nil =>
      simp only [joinChars]
      exact splitChars_no_lf l (fun c hc => (h l (by simp) c hc).1)
    | cons m rest2 =>
      simp only [joinChars, List.append_assoc, List.cons_append, List.nil_append]
      rw [splitChars_line_crlf l _ (h l (by simp)),
        ih (by simp) (fun l2 hl2 => h l2 (List.mem_cons_of_mem _ hl2))]

theorem joinChars_no_lf (ls : List (List Char)) (h : ∀ l ∈ ls, ∀ c ∈ l, c ≠ '\n') :
    ∀ c ∈ joinChars ['\r'] ls, c ≠ '\n' := by
  induction ls with
  | nil => simp [joinChars]
  | cons l rest ih =>
    cases rest with
    | nil => simpa [joinChars] using h
    | cons m rest2 =>
      intro c hc
      simp only [joinChars, List.append_assoc, List.mem_append, List.mem_singleton] at hc
      rcases hc with hc | hc | hc
      · exact h l (by simp) c hc
      · rw [hc]; decide
      · exact ih (fun l2 hl2 => h l2 (List.mem_cons_of_mem _ hl2)) c hc

theorem validateBodySteps_congr (f a b : String) (req : Bool)
    (h : splitLines a = splitLines b) :
    validateBodySteps f a req = validateBodySteps f b req := by
  simp only [validateBodySteps, h]

/-- C6 (as stated, refuted): a item/expectation pair of lines joined with a lone
carriage return is one line to `validateBodySteps`, which reports it, while the
same lines joined with a line feed pass. -/
theorem validateBodySteps_cr_differs :
    NoLineBreak "1. a" ∧ NoLineBreak "**Expected:** b" ∧
    validateBodySteps "t.md" (joinLines "\n" ["1. a", "**Expected:** b"]) false = (true, []) ∧
    validateBodySteps "t.md" (joinLines "\r" ["1. a", "**Expected:** b"]) false =
      (false, ["t.md:1 - Step is not followed by \"**Expected:** ...\" on the next line"]) := by
  refine ⟨?_, ?_, by decide, by decide⟩
  · unfold NoLineBreak; decide
  · unfold NoLineBreak; decide

/-- C6 (amended): for lines without a line-feed or carriage-return character,
`validateBodySteps` gives the same boolean and diagnostics whether the lines are
joined with LF or with CRLF, the lines it works on being the given ones; a lone
CR is no line ending: the lines joined with CR are a single line. -/
theorem validateBodySteps_lf_crlf (f : String) (lines : List String) (req : Bool)
    (h : ∀ l ∈ lines, NoLineBreak l) :
    validateBodySteps f (joinLines "\n" lines) req =
      validateBodySteps f (joinLines "\r\n" lines) req ∧
    (lines ≠ [] → splitLines (joinLines "\n" lines) = lines ∧
      splitLines (joinLines "\r\n" lines) = lines) ∧
    splitLines (joinLines "\r" lines) = [joinLines "\r" lines] := by
  have hc : ∀ l ∈ lines.map String.data, ∀ c ∈ l, c ≠ '\n' ∧ c ≠ '\r' := by
    intro l hl
    obtain ⟨s, hs, rfl⟩ := List.mem_map.1 hl
    exact h s hs
  have hmap : (lines.map String.data).map String.mk = lines := by
    simp [List.map_map, Function.comp_def]
  have hsplit : lines ≠ [] → splitLines (joinLines "\n" lines) = lines ∧
      splitLines (joinLines "\r\n" lines) = lines := by
    intro hne
    have hne2 : lines.map String.data ≠ [] := by simpa using hne
    constructor
    · simp only [splitLines, joinLines]
      rw [splitChars_join_lf _ hne2 hc, hmap]
    · simp only [splitLines, joinLines]
      rw [splitChars_join_crlf _ hne2 hc, hmap]
  refine ⟨?_, hsplit, ?_⟩
  · by_cases hne : lines = []
    · subst hne; rfl
    · exact validateBodySteps_congr f _ _ req (by rw [(hsplit hne).1, (hsplit hne).2])
  · simp only [splitLines, joinLines]
    rw [splitChars_no_lf _ (joinChars_no_lf _ (fun l hl c hc2 => (hc l hl c hc2).1))]
    rfl

theorem validateBodySteps_lf_crlf_witness :
    validateBodySteps "t.md" (joinLines "\n" ["1. a", "**Expected:** b", "2. c"]) false =
      validateBodySteps "t.md" (joinLines "\r\n" ["1. a", "**Expected:** b", "2. c"]) false :=
  (validateBodySteps_lf_crlf "t.md" ["1. a", "**Expected:** b", "2. c"] false
    (by unfold NoLineBreak; decide)).1

/-! ## Properties of the filename/id checker -/

theorem basename_append_extname (p : String) :
    (basename p (extname p)).data ++ (extname p).data = lastComponent p.data := by
  unfold extname
  simp only []
  split
  · simp [basename]
  · rename_i hcond
    simp only [Bool.or_eq_true, not_or, Bool.not_eq_true] at hcond
    obtain ⟨⟨_, hstem⟩, _⟩ := hcond
    generalize hcomp : lastComponent p.data = comp at *
    generalize hst : (List.dropWhile (fun c => c != '.') comp.reverse).drop 1 = stem at *
    have hspos : 0 < stem.length := List.length_pos.2 (by simpa using hstem)
    have hlen : stem.length < comp.length := by
      have h1 : (List.dropWhile (fun c => c != '.') comp.reverse).length ≤ comp.reverse.length :=
        (List.dropWhile_sublist _).length_le
      have h3 := hspos
      rw [← hst, List.length_drop] at h3 ⊢
      simp only [List.length_reverse] at h1
      omega
    have hpl : comp.length ≤ p.data.length := by
      rw [← hcomp, lastComponent, List.length_reverse]
      refine le_trans (List.takeWhile_sublist _).length_le ?_
      refine le_trans (List.dropWhile_sublist _).length_le ?_
      simp
    have hne : (String.mk (comp.drop stem.length) == p) = false := by
      rw [beq_eq_false_iff_ne]
      intro he
      have := congrArg String.length he
      simp only [String.length, List.length_drop] at this
      omega
    have hpos : 0 < comp.length - stem.length := by omega
    simp only [basename, hcomp, String.length, List.length_drop, hne, Bool.and_false,
      Bool.false_eq_true, if_false]
    have hsub : comp.length - (comp.length - stem.length) = stem.length := by omega
    simp [hsub, hpos, hlen, hspos, List.take_append_drop, Nat.lt_of_le_of_lt (Nat.zero_le _) hlen]

/-- C4: `validateFilenameMatchesId` returns true exactly when the base name (the
last path component without its final extension) equals the id or starts with
the id followed by `-`; it writes one diagnostic naming the id as the expected
start when it returns false, and none when it returns true. -/
theorem validateFilenameMatchesId_iff (p id : String) :
    ((validateFilenameMatchesId p id).1 = true ↔
      basename p (extname p) = id ∨ startsWith (basename p (extname p)) (id ++ "-") = true) ∧
    (validateFilenameMatchesId p id).2 =
      (if (validateFilenameMatchesId p id).1 = true then []
       else [p ++ " - Filename should equal the id or start with it (expected starts with \""
         ++ id ++ "\")"]) ∧
    (basename p (extname p)).data ++ (extname p).data = lastComponent p.data ∧
    validateFilenameMatchesId "feature-001-login.md" "feature-001" = (true, []) ∧
    (validateFilenameMatchesId "feature-001-login.md" "feature-002").1 = false := by
  refine ⟨?_, ?_, basename_append_extname p, by decide, by decide⟩
  · unfold validateFilenameMatchesId
    simp only []
    by_cases h1 : basename p (extname p) = id
    · simp [h1]
    · by_cases h2 : startsWith (basename p (extname p)) (id ++ "-") = true
      · simp [h1, h2]
      · simp [h1, h2]
  · unfold validateFilenameMatchesId
    simp only []
    split <;> simp

/-! ## Properties of the orchestrator -/

theorem record_pass (p : Proc) : p.record (true, []) = p := by
  cases p
  simp [Proc.record]

theorem checkSequentialYamlSteps_of_not_truthy (f : String) (v : JsVal)
    (h : v.truthy = false) : checkSequentialYamlSteps f v = (true, []) := by
  cases v <;> simp_all [checkSequentialYamlSteps, JsVal.truthy]

theorem getProp_of_not_own (v : JsVal) (k : String) (h : v.hasOwnProperty k = false) :
    v.getProp k = JsVal.undefined := by
  unfold JsVal.hasOwnProperty at h
  unfold JsVal.getProp
  cases hl : List.lookup k v.entries with
  | none => rfl
  | some x => simp [hl] at h

theorem steps_guard (p : Proc) (t : TestCase) :
    (if (t.data.getProp "steps").truthy then
      p.record (checkSequentialYamlSteps t.file (t.data.getProp "steps"))
     else p) = p.record (stepsResult t) := by
  unfold stepsResult
  by_cases htr : (t.data.getProp "steps").truthy = true
  · have hown : t.data.hasOwnProperty "steps" = true := by
      by_contra hno
      have hu := getProp_of_not_own t.data "steps" (by simpa using hno)
      rw [hu] at htr
      simp [JsVal.truthy] at htr
    simp [htr, hown]
  · have hf : (t.data.getProp "steps").truthy = false := by simpa using htr
    rw [if_neg htr]
    split
    · rw [checkSequentialYamlSteps_of_not_truthy _ _ hf, record_pass]
    · rw [record_pass]

theorem processFile_of_ok (validate : JsVal → AjvOutcome) (p : Proc) (t : TestCase)
    (h : (validate t.data).ok = true) :
    processFile validate p t =
      ((p.record (idResult t)).record (stepsResult t)).record (bodyResult t) := by
  unfold processFile
  simp only [h, Bool.not_true, Bool.false_eq_true, if_false]
  rw [steps_guard]
  have hid : (match t.data.getProp "id" with
      | JsVal.str id => p.record (validateFilenameMatchesId t.file id)
      | _ => p) = p.record (idResult t) := by
    unfold idResult
    split
    · rfl
    · rw [record_pass]
  rw [hid]
  rfl

theorem processFile_of_not_ok (validate : JsVal → AjvOutcome) (p : Proc) (t : TestCase)
    (h : (validate t.data).ok = false) :
    processFile validate p t =
      { stderr := p.stderr ++ printAjvErrors t.file ((validate t.data).errors.getD []),
        stdout := p.stdout, exitCode := some 1 } := by
  unfold processFile
  simp [h]

theorem processFile_stdout (validate : JsVal → AjvOutcome) (p : Proc) (t : TestCase) :
    (processFile validate p t).stdout = p.stdout := by
  cases h : (validate t.data).ok
  · rw [processFile_of_not_ok validate p t h]
  · rw [processFile_of_ok validate p t h]
    rfl

theorem processFile_stderr (validate : JsVal → AjvOutcome) (p : Proc) (t : TestCase) :
    (processFile validate p t).stderr = p.stderr ++ fileLines validate t := by
  unfold fileLines
  cases h : (validate t.data).ok
  · simp [processFile_of_not_ok validate _ t h, Proc.init]
  · simp [processFile_of_ok validate _ t h, Proc.record, Proc.init]

theorem processFile_exitCode (validate : JsVal → AjvOutcome) (p : Proc) (t : TestCase) :
    (processFile validate p t).exitCode =
      if (validate t.data).ok && (idResult t).1 && (stepsResult t).1 && (bodyResult t).1
      then p.exitCode else some 1 := by
  cases h : (validate t.data).ok
  · simp [processFile_of_not_ok validate _ t h]
  · rw [processFile_of_ok validate _ t h]
    cases h1 : (idResult t).1 <;> cases h2 : (stepsResult t).1 <;>
      cases h3 : (bodyResult t).1 <;> simp [Proc.record, h1, h2, h3]

theorem foldl_stdout (validate : JsVal → AjvOutcome) (files : List TestCase) (p : Proc) :
    (files.foldl (processFile validate) p).stdout = p.stdout := by
  induction files generalizing p with
  | nil => rfl
  | cons t rest ih => rw [List.foldl_cons, ih, processFile_stdout]

theorem foldl_stderr (validate : JsVal → AjvOutcome) (files : List TestCase) (p : Proc) :
    (files.foldl (processFile validate) p).stderr =
      p.stderr ++ (files.map (fileLines validate)).flatten := by
  induction files generalizing p with
  | nil => simp
  | cons t rest ih =>
    rw [List.foldl_cons, ih, processFile_stderr]
    simp

theorem passes_iff (validate : JsVal → AjvOutcome) (t : TestCase) :
    Passes validate t ↔
      ((validate t.data).ok && (idResult t).1 && (stepsResult t).1 && (bodyResult t).1) = true := by
  simp [Passes, and_assoc]

theorem foldl_exitCode (validate : JsVal → AjvOutcome) (files : List TestCase) (p : Proc) :
    (files.foldl (processFile validate) p).exitCode =
      if ∀ t ∈ files, Passes validate t then p.exitCode else some 1 := by
  induction files generalizing p with
  | nil => simp
  | cons t rest ih =>
    rw [List.foldl_cons, ih, processFile_exitCode]
    by_cases ht : Passes validate t
    · have ht2 := (passes_iff validate t).1 ht
      simp [ht, ht2]
    · have ht2 : ¬ ((validate t.data).ok && (idResult t).1 && (stepsResult t).1 &&
          (bodyResult t).1) = true := fun hx => ht ((passes_iff validate t).2 hx)
      simp only [ht2, if_false, List.forall_mem_cons, ht, false_and]
      split <;> rfl

theorem fileLines_of_ok (validate : JsVal → AjvOutcome) (t : TestCase)
    (h : (validate t.data).ok = true) :
    fileLines validate t = (idResult t).2 ++ (stepsResult t).2 ++ (bodyResult t).2 := by
  simp [fileLines, processFile_of_ok validate _ t h, Proc.record, Proc.init]

theorem fileLines_of_not_ok (validate : JsVal → AjvOutcome) (t : TestCase)
    (h : (validate t.data).ok = false) :
    fileLines validate t = printAjvErrors t.file ((validate t.data).errors.getD []) := by
  simp [fileLines, processFile_of_not_ok validate _ t h, Proc.init]

theorem main_stderr (validate : JsVal → AjvOutcome) (files : List TestCase) :
    (main validate files).stderr = (files.map (fileLines validate)).flatten := by
  have h := foldl_stderr validate files Proc.init
  unfold main finish
  split <;> simpa [Proc.init] using h

theorem main_status (validate : JsVal → AjvOutcome) (files : List TestCase) :
    (main validate files).status = if ∀ t ∈ files, Passes validate t then 0 else 1 := by
  have h := foldl_exitCode validate files Proc.init
  unfold main finish
  by_cases hall : ∀ t ∈ files, Passes validate t
  · rw [if_pos hall] at h
    rw [if_pos hall, h]
    rfl
  · rw [if_neg hall] at h
    rw [if_neg hall, h]

theorem main_stdout (validate : JsVal → AjvOutcome) (files : List TestCase) :
    (main validate files).stdout =
      if ∀ t ∈ files, Passes validate t then ["All test cases passed validation."] else [] := by
  have h := foldl_exitCode validate files Proc.init
  have ho := foldl_stdout validate files Proc.init
  unfold main finish
  by_cases hall : ∀ t ∈ files, Passes validate t
  · rw [if_pos hall] at h
    rw [if_pos hall, h]
    simp only [ho]
    rfl
  · rw [if_neg hall] at h
    rw [if_neg hall, h]
    simp only [ho]
    rfl

/-- C5 (as stated, refuted): a document whose front matter fails the schema and
whose body has a numbered item without expectation gets the schema lines only;
the body-step diagnostic of that document is not written. -/
theorem main_schema_failure_skips_body_check :
    (requireId docWithoutId.data).ok = false ∧
    validateBodySteps docWithoutId.file docWithoutId.content false =
      (false, ["a.md:1 - Step is not followed by \"**Expected:** ...\" on the next line"]) ∧
    (main requireId [docWithoutId]).stderr =
      ["a.md - Front matter schema errors:", "  (root) must have required property id"] := by
  refine ⟨by decide, by decide, by decide⟩

/-- C5 (amended): for a document whose front matter passes the schema, the
body-step check runs with `requireSteps = false` whatever the identity and
step-sequence checks returned: its diagnostics end the lines of the document,
every unpaired numbered item is reported, and a false result marks the document
failed. A document whose front matter fails the schema gets the schema lines
only: the body-step check is skipped with the other checks. -/
theorem processFile_body_check_after_schema (validate : JsVal → AjvOutcome) (p : Proc)
    (t : TestCase) (h : (validate t.data).ok = true) :
    fileLines validate t =
      (idResult t).2 ++ (stepsResult t).2 ++ (validateBodySteps t.file t.content false).2 ∧
    (∀ i, i < (splitLines t.content).length → unpairedAt (splitLines t.content) i = true →
      bodyStepMessage t.file i ∈ fileLines validate t) ∧
    ((validateBodySteps t.file t.content false).1 = false →
      (processFile validate p t).exitCode = some 1) ∧
    (∀ u : TestCase, (validate u.data).ok = false →
      fileLines validate u = printAjvErrors u.file ((validate u.data).errors.getD [])) := by
  refine ⟨fileLines_of_ok validate t h, ?_, ?_, fun u hu => fileLines_of_not_ok validate u hu⟩
  · intro i hi hu
    rw [fileLines_of_ok validate t h]
    apply List.mem_append_right
    simp only [bodyResult]
    rw [validateBodySteps_eq]
    simp only [Bool.false_and, Bool.false_eq_true, if_false]
    exact List.mem_map.2 ⟨i, List.mem_filter.2 ⟨List.mem_range.2 hi, hu⟩, rfl⟩
  · intro hb
    rw [processFile_exitCode]
    have : (bodyResult t).1 = false := hb
    simp [this]

theorem processFile_body_check_after_schema_witness :
    bodyStepMessage docAllWrong.file 0 ∈ fileLines acceptAll docAllWrong :=
  (processFile_body_check_after_schema acceptAll Proc.init docAllWrong rfl).2.1 0
    (by decide) (by decide)

/-- C7: when the schema validation of a document fails, the lines written for
it are the schema errors alone (no filename/id line, no step-sequence line),
the exit code is set to 1 so the run fails, and the documents after it are
processed as usual. -/
theorem processFile_schema_failure (validate : JsVal → AjvOutcome) (p : Proc) (t : TestCase)
    (h : (validate t.data).ok = false) :
    (processFile validate p t).stderr =
      p.stderr ++ printAjvErrors t.file ((validate t.data).errors.getD []) ∧
    (processFile validate p t).exitCode = some 1 ∧
    (∀ pre post : List TestCase,
      (main validate (pre ++ t :: post)).stderr =
        (pre.map (fileLines validate)).flatten ++
          printAjvErrors t.file ((validate t.data).errors.getD []) ++
          (post.map (fileLines validate)).flatten ∧
      (main validate (pre ++ t :: post)).status = 1 ∧
      (main validate (pre ++ t :: post)).stdout = []) := by
  have hnp : ¬ Passes validate t := fun hp => by simp [hp.1] at h
  refine ⟨by rw [processFile_of_not_ok validate p t h], by
    rw [processFile_of_not_ok validate p t h], ?_⟩
  intro pre post
  have hall : ¬ ∀ u ∈ pre ++ t :: post, Passes validate u :=
    fun hx => hnp (hx t (by simp))
  refine ⟨?_, ?_, ?_⟩
  · rw [main_stderr, ← fileLines_of_not_ok validate t h]
    simp
  · rw [main_status, if_neg hall]
  · rw [main_stdout, if_neg hall]

theorem processFile_schema_failure_witness :
    (main requireId ([docFine] ++ docWithoutId :: [docAllWrong])).stderr =
      ["a.md - Front matter schema errors:", "  (root) must have required property id",
       "b.md - Filename should equal the id or start with it (expected starts with \"c\")",
       "b.md - Step numbers must be sequential starting at 1 (found 2)",
       "b.md:1 - Step is not followed by \"**Expected:** ...\" on the next line"] :=
  ((processFile_schema_failure requireId Proc.init docWithoutId rfl).2.2
    [docFine] [docAllWrong]).1.trans (by decide)

/-- C8: for a document whose front matter passes the schema, the identity check
(when `id` is a string), the step-sequence check (when `steps` is present) and
the body-step check all run: the lines of the document are the identity lines,
then the step-sequence lines, then the body-step lines, and the document is
marked failed exactly when one of the three checks returns false. -/
theorem processFile_runs_every_check (validate : JsVal → AjvOutcome) (p : Proc) (t : TestCase)
    (h : (validate t.data).ok = true) :
    (processFile validate p t).stderr =
      p.stderr ++ ((idResult t).2 ++ (stepsResult t).2 ++ (bodyResult t).2) ∧
    (processFile validate p t).exitCode =
      (if (idResult t).1 = false ∨ (stepsResult t).1 = false ∨ (bodyResult t).1 = false
       then some 1 else p.exitCode) ∧
    ((processFile validate Proc.init t).exitCode = some 1 ↔
      (idResult t).1 = false ∨ (stepsResult t).1 = false ∨ (bodyResult t).1 = false) ∧
    (Passes validate t ↔
      ¬ ((idResult t).1 = false ∨ (stepsResult t).1 = false ∨ (bodyResult t).1 = false)) := by
  have hcode : ∀ q : Proc, (processFile validate q t).exitCode =
      (if (idResult t).1 = false ∨ (stepsResult t).1 = false ∨ (bodyResult t).1 = false
       then some 1 else q.exitCode) := by
    intro q
    rw [processFile_exitCode, h]
    cases (idResult t).1 <;> cases (stepsResult t).1 <;> cases (bodyResult t).1 <;> simp
  refine ⟨?_, hcode p, ?_, ?_⟩
  · rw [processFile_stderr, fileLines_of_ok validate t h]
  · rw [hcode]
    split
    · simp [*]
    · simp [*, Proc.init]
  · simp [Passes, h]

theorem processFile_runs_every_check_witness :
    (processFile acceptAll Proc.init docAllWrong).stderr =
      Proc.init.stderr ++
        (["b.md - Filename should equal the id or start with it (expected starts with \"c\")"] ++
         ["b.md - Step numbers must be sequential starting at 1 (found 2)"] ++
         ["b.md:1 - Step is not followed by \"**Expected:** ...\" on the next line"]) :=
  (processFile_runs_every_check acceptAll Proc.init docAllWrong rfl).1.trans (by decide)

/-- C9: the run ends with status 0 and the single summary line on the output
stream exactly when every document passed the schema and every applicable
check; a single failing document makes the status 1 and leaves the output
stream empty, whatever precedes or follows it; the empty corpus succeeds. -/
theorem main_succeeds_iff (validate : JsVal → AjvOutcome) (files : List TestCase) :
    (((main validate files).status = 0 ∧
        (main validate files).stdout = ["All test cases passed validation."]) ↔
      ∀ t ∈ files, Passes validate t) ∧
    ((main validate files).status = 0 ↔ ∀ t ∈ files, Passes validate t) ∧
    ((main validate files).stdout = ["All test cases passed validation."] ↔
      ∀ t ∈ files, Passes validate t) ∧
    (∀ (pre post : List TestCase) (t : TestCase), ¬ Passes validate t →
      (main validate (pre ++ t :: post)).status = 1 ∧
      (main validate (pre ++ t :: post)).stdout = []) ∧
    main validate [] =
      { stderr := [], stdout := ["All test cases passed validation."], status := 0 } := by
  have hs := main_status validate files
  have ho := main_stdout validate files
  refine ⟨?_, ?_, ?_, ?_, rfl⟩
  · by_cases hall : ∀ t ∈ files, Passes validate t
    · rw [if_pos hall] at hs ho
      exact ⟨fun _ => hall, fun _ => ⟨hs, ho⟩⟩
    · rw [if_neg hall] at hs ho
      simp [hs, hall]
  · by_cases hall : ∀ t ∈ files, Passes validate t
    · rw [if_pos hall] at hs
      exact ⟨fun _ => hall, fun _ => hs⟩
    · rw [if_neg hall] at hs
      simp [hs, hall]
  · by_cases hall : ∀ t ∈ files, Passes validate t
    · rw [if_pos hall] at ho
      exact ⟨fun _ => hall, fun _ => ho⟩
    · rw [if_neg hall] at ho
      simp [ho, hall]
  · intro pre post t ht
    have hall : ¬ ∀ u ∈ pre ++ t :: post, Passes validate u := fun hx => ht (hx t (by simp))
    rw [main_status, main_stdout, if_neg hall, if_neg hall]
    exact ⟨rfl, rfl⟩

theorem main_succeeds_iff_witness :
    (main acceptAll ([docFine] ++ docAllWrong :: [docFine, docFine])).status = 1 ∧
    (main acceptAll ([docFine] ++ docAllWrong :: [docFine, docFine])).stdout = [] :=
  (main_succeeds_iff acceptAll []).2.2.2.1 [docFine] [docFine, docFine] docAllWrong
    (by decide)

/-! ## Further properties of the step-sequence checker -/

theorem checkSequentialYamlSteps_false_of_invalid (f : String) (xs : List JsVal)
    (h : ∃ s ∈ xs, ¬ StructValid s) :
    (checkSequentialYamlSteps f (JsVal.arr xs)).1 = false := by
  obtain ⟨pre, bad, post, he, hp, hb⟩ := exists_first_invalid xs h
  obtain ⟨msg, hm⟩ := checkStep_of_invalid f bad hb
  rw [he, checkSequentialYamlSteps_of_invalid f pre post bad msg hp hm]

theorem insertionSort_perm_eq (a b : List Nat) (h : a.Perm b) :
    a.insertionSort (fun x y => x ≤ y) = b.insertionSort (fun x y => x ≤ y) := by
  have h1 := List.perm_insertionSort (fun x y : Nat => x ≤ y) a
  have h2 := List.perm_insertionSort (fun x y : Nat => x ≤ y) b
  exact List.eq_of_perm_of_sorted (h1.trans (h.trans h2.symm))
    (List.sorted_insertionSort _ a) (List.sorted_insertionSort _ b)

theorem sequenceMessage_single (f : String) (n : Nat) (digits : String)
    (h : numberToString n = digits) :
    sequenceMessage f [n] =
      f ++ (" - Step numbers must be sequential starting at 1 (found " ++ digits ++ ")") := by
  have hj : joinNums [n] = digits := by
    rw [← h]
    simp [joinNums, String.intercalate, String.intercalate.go]
  rw [sequenceMessage, hj, String.append_assoc, String.append_assoc, String.append_assoc]

set_option maxRecDepth 100000 in
theorem numberToString_overflow :
    numberToString (toNumber (String.mk (List.replicate 310 '9'))) = "Infinity" := by
  decide

theorem numberToString_examples :
    numberToString (toNumber "9007199254740992") = "9007199254740992" ∧
    numberToString (toNumber "9007199254740993") = "9007199254740992" ∧
    numberToString (toNumber "9007199254740995") = "9007199254740996" ∧
    numberToString (toNumber "18446744073709551616") = "18446744073709552000" ∧
    numberToString (toNumber "999999999999999999999") = "1e+21" ∧
    numberToString (toNumber "99999999999999991611392") = "1e+23" := by
  refine ⟨by decide, by decide, by decide, by decide, by decide, by decide⟩

/-- C11: when every entry is structurally valid but the step numbers are not
1..n, `checkSequentialYamlSteps` returns false with the one sequence diagnostic,
which lists the step numbers (the doubles `Number(key)`) in ascending order,
duplicates kept, joined by `", "`, whatever their order in the array. A number
below `2^53` is the value of its key and is printed in decimal; a larger key is
listed as JavaScript prints its double. -/
theorem checkSequentialYamlSteps_reports_sorted (f : String) (xs : List JsVal)
    (h : ∀ s ∈ xs, StructValid s)
    (hn : ¬ (xs.map stepNumber).Perm (List.range' 1 xs.length)) :
    (∃ sorted : List Nat, sorted.Sorted (fun a b => a ≤ b) ∧
      sorted.Perm (xs.map stepNumber) ∧
      checkSequentialYamlSteps f (JsVal.arr xs) =
        (false, [f ++ " - Step numbers must be sequential starting at 1 (found " ++
          ", ".intercalate (sorted.map numberToString) ++ ")"])) ∧
    (∀ ys : List JsVal, ys.Perm xs →
      checkSequentialYamlSteps f (JsVal.arr ys) = checkSequentialYamlSteps f (JsVal.arr xs)) ∧
    (∀ v : Nat, v < 9007199254740992 → toDouble v = v ∧ numberToString v = toString v) ∧
    checkSequentialYamlSteps f
        (JsVal.arr [JsVal.obj [("1", JsVal.str "a")], JsVal.obj [("3", JsVal.str "b")]]) =
      (false, [f ++ " - Step numbers must be sequential starting at 1 (found 1, 3)"]) ∧
    checkSequentialYamlSteps f
        (JsVal.arr [JsVal.obj [("3", JsVal.str "b")], JsVal.obj [("1", JsVal.str "a")]]) =
      (false, [f ++ " - Step numbers must be sequential starting at 1 (found 1, 3)"]) ∧
    checkSequentialYamlSteps f (JsVal.arr [JsVal.obj [("9007199254740993", JsVal.str "a")]]) =
      (false, [f ++
        " - Step numbers must be sequential starting at 1 (found 9007199254740992)"]) ∧
    checkSequentialYamlSteps f
        (JsVal.arr [JsVal.obj [("1000000000000000000000", JsVal.str "a")]]) =
      (false, [f ++ " - Step numbers must be sequential starting at 1 (found 1e+21)"]) := by
  refine ⟨?_, ?_, ?_, ?_, ?_, ?_, ?_⟩
  · refine ⟨(xs.map stepNumber).insertionSort (fun a b => a ≤ b),
      List.sorted_insertionSort _ _, List.perm_insertionSort _ _, ?_⟩
    rw [checkSequentialYamlSteps_of_valid f xs h]
    have hs := sorted_sequential_iff (xs.map stepNumber)
    rw [List.length_map] at hs
    rw [if_neg (fun hx => hn (hs.1 hx))]
    rfl
  · intro ys hp
    have hy : ∀ s ∈ ys, StructValid s := fun s hs => h s (hp.mem_iff.1 hs)
    rw [checkSequentialYamlSteps_of_valid f xs h, checkSequentialYamlSteps_of_valid f ys hy,
      insertionSort_perm_eq _ _ (hp.map stepNumber)]
  · intro v hv
    exact ⟨by simp [toDouble, hv], by simp [numberToString, hv]⟩
  · have hr : checkSequentialYamlSteps f
        (JsVal.arr [JsVal.obj [("1", JsVal.str "a")], JsVal.obj [("3", JsVal.str "b")]]) =
        (false, [sequenceMessage f [1, 3]]) := rfl
    rw [hr, sequenceMessage, String.append_assoc, String.append_assoc]
    rfl
  · have hr : checkSequentialYamlSteps f
        (JsVal.arr [JsVal.obj [("3", JsVal.str "b")], JsVal.obj [("1", JsVal.str "a")]]) =
        (false, [sequenceMessage f [1, 3]]) := rfl
    rw [hr, sequenceMessage, String.append_assoc, String.append_assoc]
    rfl
  · have hr : checkSequentialYamlSteps f
        (JsVal.arr [JsVal.obj [("9007199254740993", JsVal.str "a")]]) =
        (false, [sequenceMessage f [9007199254740992]]) := rfl
    rw [hr, sequenceMessage_single f _ "9007199254740992" (by decide)]
    rfl
  · have hr : checkSequentialYamlSteps f
        (JsVal.arr [JsVal.obj [("1000000000000000000000", JsVal.str "a")]]) =
        (false, [sequenceMessage f [1000000000000000000000]]) := rfl
    rw [hr, sequenceMessage_single f _ "1e+21" (by decide)]
    rfl

theorem checkSequentialYamlSteps_reports_sorted_witness :
    checkSequentialYamlSteps "a.md"
        (JsVal.arr [JsVal.obj [("2", JsVal.str "b")], JsVal.obj [("4", JsVal.str "d")],
          JsVal.obj [("2", JsVal.str "c")]]) =
      checkSequentialYamlSteps "a.md"
        (JsVal.arr [JsVal.obj [("4", JsVal.str "d")], JsVal.obj [("2", JsVal.str "b")],
          JsVal.obj [("2", JsVal.str "c")]]) :=
  (checkSequentialYamlSteps_reports_sorted "a.md"
    [JsVal.obj [("4", JsVal.str "d")], JsVal.obj [("2", JsVal.str "b")],
      JsVal.obj [("2", JsVal.str "c")]]
    (fun s hs => by
      simp only [List.mem_cons, List.mem_singleton, List.not_mem_nil, or_false] at hs
      rcases hs with rfl | rfl | rfl
      · exact checkStep_ok_valid "" _ 4 rfl
      · exact checkStep_ok_valid "" _ 2 rfl
      · exact checkStep_ok_valid "" _ 2 rfl)
    (by decide)).2.1 _ (List.Perm.swap _ _ _)

/-- C12: the order of the entries does not matter to the verdict:
`checkSequentialYamlSteps` returns the same boolean on an array and on every
permutation of it. -/
theorem checkSequentialYamlSteps_perm (f : String) (xs ys : List JsVal) (h : xs.Perm ys) :
    (checkSequentialYamlSteps f (JsVal.arr xs)).1 =
      (checkSequentialYamlSteps f (JsVal.arr ys)).1 := by
  by_cases hv : ∀ s ∈ xs, StructValid s
  · have hy : ∀ s ∈ ys, StructValid s := fun s hs => hv s (h.mem_iff.2 hs)
    rw [checkSequentialYamlSteps_of_valid f xs hv, checkSequentialYamlSteps_of_valid f ys hy,
      insertionSort_perm_eq _ _ (h.map stepNumber)]
  · have hx : ∃ s ∈ xs, ¬ StructValid s := by
      by_contra hno
      exact hv (fun s hs => by_contra (fun hn => hno ⟨s, hs, hn⟩))
    have hy : ∃ s ∈ ys, ¬ StructValid s := by
      obtain ⟨s, hs, hn⟩ := hx
      exact ⟨s, h.mem_iff.1 hs, hn⟩
    rw [checkSequentialYamlSteps_false_of_invalid f xs hx,
      checkSequentialYamlSteps_false_of_invalid f ys hy]

theorem checkSequentialYamlSteps_perm_witness :
    (checkSequentialYamlSteps "a.md"
        (JsVal.arr [JsVal.obj [("2", JsVal.str "b")], JsVal.null,
          JsVal.obj [("1", JsVal.str "a")]])).1 =
      (checkSequentialYamlSteps "a.md"
        (JsVal.arr [JsVal.null, JsVal.obj [("2", JsVal.str "b")],
          JsVal.obj [("1", JsVal.str "a")]])).1 :=
  checkSequentialYamlSteps_perm "a.md" _ _ (List.Perm.swap _ _ _)

/-- C16: on a `steps` value that is not an array (undefined, null, a string, a
number, a boolean or a plain object) `checkSequentialYamlSteps` returns true
and writes no diagnostic. -/
theorem checkSequentialYamlSteps_non_array (f : String) (v : JsVal)
    (h : v.isArray = false) :
    checkSequentialYamlSteps f v = (true, []) := by
  cases v <;> simp_all [checkSequentialYamlSteps, JsVal.isArray]

theorem checkSequentialYamlSteps_non_array_witness :
    checkSequentialYamlSteps "a.md" JsVal.undefined = (true, []) ∧
    checkSequentialYamlSteps "a.md" JsVal.null = (true, []) ∧
    checkSequentialYamlSteps "a.md" (JsVal.str "1") = (true, []) ∧
    checkSequentialYamlSteps "a.md" (JsVal.num 3) = (true, []) ∧
    checkSequentialYamlSteps "a.md" (JsVal.bool true) = (true, []) ∧
    checkSequentialYamlSteps "a.md" (JsVal.obj [("3", JsVal.str "x")]) = (true, []) :=
  ⟨checkSequentialYamlSteps_non_array "a.md" _ rfl,
   checkSequentialYamlSteps_non_array "a.md" _ rfl,
   checkSequentialYamlSteps_non_array "a.md" _ rfl,
   checkSequentialYamlSteps_non_array "a.md" _ rfl,
   checkSequentialYamlSteps_non_array "a.md" _ rfl,
   checkSequentialYamlSteps_non_array "a.md" _ rfl⟩

/-- C17: the guard of `main` on the truthiness of `data.steps` changes nothing:
for every value the guarded call returns the boolean and the diagnostics of
`checkSequentialYamlSteps` on that value, every falsy value being a non-array;
so the step-sequence outcome of a document that has the field `steps` is that
of the checker on its value. -/
theorem guardedSteps_eq (f : String) (v : JsVal) :
    guardedSteps f v = checkSequentialYamlSteps f v ∧
    (v.isArray = true → v.truthy = true) ∧
    (∀ (p : Proc) (t : TestCase), t.data.hasOwnProperty "steps" = true →
      (if (t.data.getProp "steps").truthy then
        p.record (checkSequentialYamlSteps t.file (t.data.getProp "steps"))
       else p) = p.record (checkSequentialYamlSteps t.file (t.data.getProp "steps"))) := by
  refine ⟨?_, ?_, ?_⟩
  · unfold guardedSteps
    split
    · rfl
    · rename_i hf
      rw [checkSequentialYamlSteps_of_not_truthy f v (by simpa using hf)]
  · cases v <;> simp [JsVal.isArray, JsVal.truthy]
  · intro p t hown
    rw [steps_guard, stepsResult, if_pos hown]

theorem guardedSteps_eq_witness :
    (if (docAllWrong.data.getProp "steps").truthy then
        Proc.init.record
          (checkSequentialYamlSteps docAllWrong.file (docAllWrong.data.getProp "steps"))
       else Proc.init) =
      Proc.init.record
        (checkSequentialYamlSteps docAllWrong.file (docAllWrong.data.getProp "steps")) :=
  (guardedSteps_eq "a.md" JsVal.null).2.2 Proc.init docAllWrong rfl

/-! ## Properties of the schema error printer -/

/-- C18: `printAjvErrors` writes the header and then one line per error record,
in the order of the list: two spaces, the instance path or `(root)` when it is
empty, a space, the message, and ` [additionalProperty=<name>]` exactly when
the record has a non-empty additional-property name. -/
theorem printAjvErrors_lines (file : String) (errors : List AjvError) :
    (printAjvErrors file errors).length = errors.length + 1 ∧
    printAjvErrors file errors =
      (file ++ " - Front matter schema errors:") ::
        errors.map (fun e =>
          "  " ++ (if e.instancePath = "" then "(root)" else e.instancePath) ++ " " ++
            e.message ++
            (match e.additionalProperty with
             | none => ""
             | some name =>
               if name = "" then "" else " [additionalProperty=" ++ name ++ "]")) ∧
    (∀ i : Nat, i < errors.length →
      (printAjvErrors file errors).get? (i + 1) = (errors.get? i).map ajvErrorLine) ∧
    printAjvErrors "t.md"
        [{ instancePath := "", message := "must NOT have additional properties",
           additionalProperty := some "foo" },
         { instancePath := "/steps/0", message := "must be object",
           additionalProperty := none }] =
      ["t.md - Front matter schema errors:",
       "  (root) must NOT have additional properties [additionalProperty=foo]",
       "  /steps/0 must be object"] := by
  refine ⟨by simp [printAjvErrors], ?_, ?_, by decide⟩
  · unfold printAjvErrors
    congr 1
    apply List.map_congr_left
    intro e _
    unfold ajvErrorLine
    cases hp : e.additionalProperty with
    | none => by_cases h1 : e.instancePath = "" <;> simp [h1]
    | some name =>
      by_cases h1 : e.instancePath = "" <;> by_cases h2 : name = "" <;> simp [h1, h2]
  · intro i _
    simp [printAjvErrors]

theorem printAjvErrors_lines_witness :
    (printAjvErrors "t.md" [⟨"/id", "must be string", none⟩, ⟨"", "bad", some "x"⟩]).get? (1 + 1) =
      ([⟨"/id", "must be string", none⟩, ⟨"", "bad", some "x"⟩].get? 1).map ajvErrorLine :=
  (printAjvErrors_lines "t.md" [⟨"/id", "must be string", none⟩, ⟨"", "bad", some "x"⟩]).2.2.1 1
    (by decide)

/-! ## Further properties of the body-step formatter checker -/

theorem map_getD_range (L : List String) :
    (List.range L.length).map (fun j => L.getD j "") = L := by
  apply List.ext_getElem
  · simp
  · intro i h1 h2
    simp [List.getD_eq_getElem?_getD, List.getElem?_eq_getElem h2]

theorem filter_range_length (L : List String) (p : String → Bool) :
    ((List.range L.length).filter (fun j => p (L.getD j ""))).length = (L.filter p).length := by
  have h := List.filter_map (f := fun j => L.getD j "") (p := p) (l := List.range L.length)
  rw [map_getD_range] at h
  rw [h, List.length_map]
  rfl

theorem validateBodySteps_require (f body : String) :
    validateBodySteps f body true =
      if stepLineCount body = 0 then
        (false, (validateBodySteps f body false).2 ++ [noStepsMessage f])
      else validateBodySteps f body false := by
  rw [validateBodySteps_eq, validateBodySteps_eq]
  simp only [Bool.true_and, Bool.false_and, Bool.false_eq_true, if_false, filter_range_length,
    stepLineCount, noStepsMessage, beq_iff_eq]

theorem unpaired_is_step (L : List String) (i : Nat) (h : unpairedAt L i = true) :
    test stepRe (L.getD i "") = true := by
  unfold unpairedAt at h
  exact (Bool.and_eq_true _ _ ▸ h).1

theorem validateBodySteps_no_steps (f body : String) (h : stepLineCount body = 0) :
    validateBodySteps f body false = (true, []) := by
  have hnone : (List.range (splitLines body).length).filter (unpairedAt (splitLines body)) = [] := by
    rw [List.filter_eq_nil_iff]
    intro i hi hu
    have hs := unpaired_is_step _ i hu
    have hlen := filter_range_length (splitLines body) (test stepRe)
    have h0 : ((List.range (splitLines body).length).filter
        (fun j => test stepRe ((splitLines body).getD j ""))) = [] := by
      apply List.eq_nil_of_length_eq_zero
      rw [hlen]
      exact h
    rw [List.filter_eq_nil_iff] at h0
    exact h0 i hi hs
  rw [validateBodySteps_eq]
  simp [hnone]

/-- C14: `requireSteps` only adds one document-level rule: the diagnostics with
`requireSteps = true` are those with `requireSteps = false`, followed by the one
diagnostic without line number when the body has no numbered item and by
nothing otherwise. A body without numbered items passes with the flag off and
fails with exactly that one error with the flag on, and validity with the flag
on implies validity with the flag off. -/
theorem validateBodySteps_requireSteps (f body : String) :
    (validateBodySteps f body true).2 =
      (validateBodySteps f body false).2 ++
        (if stepLineCount body = 0 then [f ++ " - No numbered steps found (e.g., \"1. ...\")"]
         else []) ∧
    (validateBodySteps f body true).1 =
      ((validateBodySteps f body false).1 && decide (stepLineCount body ≠ 0)) ∧
    (stepLineCount body = 0 → validateBodySteps f body false = (true, [])) ∧
    (stepLineCount body = 0 → validateBodySteps f body true =
      (false, [f ++ " - No numbered steps found (e.g., \"1. ...\")"])) ∧
    ((validateBodySteps f body true).1 = true → (validateBodySteps f body false).1 = true) := by
  have hr := validateBodySteps_require f body
  by_cases h0 : stepLineCount body = 0
  · rw [if_pos h0] at hr
    have hf := validateBodySteps_no_steps f body h0
    simp [hr, hf, h0, noStepsMessage]
  · rw [if_neg h0] at hr
    simp [hr, h0]

theorem validateBodySteps_requireSteps_witness :
    validateBodySteps "t.md" "Intro\n\n- a bullet\n" false = (true, []) ∧
    validateBodySteps "t.md" "Intro\n\n- a bullet\n" true =
      (false, ["t.md - No numbered steps found (e.g., \"1. ...\")"]) :=
  ⟨(validateBodySteps_requireSteps "t.md" "Intro\n\n- a bullet\n").2.2.1 (by decide),
   (validateBodySteps_requireSteps "t.md" "Intro\n\n- a bullet\n").2.2.2.1 (by decide)⟩

/-! ## Keys and properties of step objects -/

theorem distinctKeys_filter (p : String → Bool) (ks : List String) :
    JsVal.distinctKeys (ks.filter p) = (JsVal.distinctKeys ks).filter p := by
  induction ks with
  | nil => rfl
  | cons k ks ih =>
    by_cases hk : p k = true
    · simp only [List.filter_cons, hk, if_true, JsVal.distinctKeys, ih, List.filter_filter]
      congr 1
      apply List.filter_congr
      intro x _
      exact Bool.and_comm _ _
    · simp only [List.filter_cons, hk, JsVal.distinctKeys, ih, List.filter_filter,
        Bool.false_eq_true, if_false]
      apply List.filter_congr
      intro x _
      by_cases hx : x = k
      · subst hx
        simp [hk]
      · simp [hx]

theorem numericKeys_eq (s : JsVal) :
    numericKeys s = JsVal.distinctKeys ((s.entries.map Prod.fst).filter (test numericKeyRe)) := by
  rw [distinctKeys_filter]
  rfl

theorem expected_not_numeric : test numericKeyRe "expected" = false := by decide

theorem ne_expected_of_numeric (k : String) (h : test numericKeyRe k = true) :
    k ≠ "expected" := by
  intro he
  rw [he, expected_not_numeric] at h
  exact Bool.false_ne_true h

theorem lookup_insert_ne (k key : String) (v : JsVal) (a b : List (String × JsVal))
    (h : k ≠ key) : List.lookup k (a ++ (key, v) :: b) = List.lookup k (a ++ b) := by
  induction a with
  | nil =>
    have hb : (k == key) = false := by simpa using h
    simp [List.lookup, hb]
  | cons x a ih =>
    obtain ⟨xk, xv⟩ := x
    simp only [List.cons_append, List.lookup_cons, ih]

theorem lookup_insert_self (key : String) (v : JsVal) (a b : List (String × JsVal))
    (h : List.lookup key (a ++ b) = none) :
    List.lookup key (a ++ (key, v) :: b) = some v := by
  induction a with
  | nil => simp [List.lookup]
  | cons x a ih =>
    obtain ⟨xk, xv⟩ := x
    simp only [List.cons_append, List.lookup_cons] at h ⊢
    cases hx : (key == xk) with
    | true => simp [hx] at h
    | false =>
      simp only [hx] at h ⊢
      exact ih h

theorem collectNums_congr (f : String) (pre post : List JsVal) (s t : JsVal) (acc : List Nat)
    (h : checkStep f s = checkStep f t) :
    collectNums f (pre ++ s :: post) acc = collectNums f (pre ++ t :: post) acc := by
  induction pre generalizing acc with
  | nil => simp only [List.nil_append, collectNums, h]
  | cons x pre ih =>
    simp only [List.cons_append, collectNums]
    cases checkStep f x with
    | error msg => rfl
    | ok n => exact ih _

theorem checkSequentialYamlSteps_congr (f : String) (pre post : List JsVal) (s t : JsVal)
    (h : checkStep f s = checkStep f t) :
    checkSequentialYamlSteps f (JsVal.arr (pre ++ s :: post)) =
      checkSequentialYamlSteps f (JsVal.arr (pre ++ t :: post)) := by
  simp only [checkSequentialYamlSteps, collectNums_congr f pre post s t [] h]

theorem checkStep_insert_expected (f : String) (a b : List (String × JsVal)) (e : String)
    (hno : (JsVal.obj (a ++ b)).hasOwnProperty "expected" = false)
    (he : ∃ c ∈ e.data, isSpace c = false) :
    checkStep f (JsVal.obj (a ++ ("expected", JsVal.str e) :: b)) =
      checkStep f (JsVal.obj (a ++ b)) := by
  have hlk : List.lookup "expected" (a ++ b) = none := by
    simpa [JsVal.hasOwnProperty, JsVal.entries] using hno
  have hkeys : (JsVal.obj (a ++ ("expected", JsVal.str e) :: b)).keys.filter (test numericKeyRe) =
      (JsVal.obj (a ++ b)).keys.filter (test numericKeyRe) := by
    have h1 := numericKeys_eq (JsVal.obj (a ++ ("expected", JsVal.str e) :: b))
    have h2 := numericKeys_eq (JsVal.obj (a ++ b))
    unfold numericKeys at h1 h2
    rw [h1, h2]
    simp [JsVal.entries, List.filter_cons, expected_not_numeric]
  have hown : (JsVal.obj (a ++ ("expected", JsVal.str e) :: b)).hasOwnProperty "expected" = true := by
    simp [JsVal.hasOwnProperty, JsVal.entries, lookup_insert_self _ _ a b hlk]
  have hget : (JsVal.obj (a ++ ("expected", JsVal.str e) :: b)).getProp "expected" =
      JsVal.str e := by
    simp [JsVal.getProp, JsVal.entries, lookup_insert_self _ _ a b hlk]
  have hgood : notNonEmptyString (JsVal.str e) = false :=
    (notNonEmptyString_eq_false _).2 ⟨e, rfl, he⟩
  have hprop : ∀ k, test numericKeyRe k = true →
      (JsVal.obj (a ++ ("expected", JsVal.str e) :: b)).getProp k =
        (JsVal.obj (a ++ b)).getProp k := by
    intro k hk
    simp [JsVal.getProp, JsVal.entries, lookup_insert_ne k _ _ a b (ne_expected_of_numeric k hk)]
  unfold checkStep
  simp only [JsVal.typeof, JsVal.truthy, hkeys, hown, hget, hno, hgood, Bool.and_false,
    Bool.false_and, Bool.true_and]
  by_cases hlen : (List.filter (test numericKeyRe) (JsVal.obj (a ++ b)).keys).length = 1
  · obtain ⟨k, hk⟩ := List.length_eq_one.1 hlen
    have hkn : test numericKeyRe k = true := by
      have : k ∈ List.filter (test numericKeyRe) (JsVal.obj (a ++ b)).keys := by simp [hk]
      exact (List.mem_filter.1 this).2
    simp only [hk, List.headD_cons, hprop k hkn]
  · simp [hlen]

/-- C13: `expected` is optional in a step: putting an `expected` property whose
value is a string with a non-white-space character into a step object that has
none, and removing such a property again, does not change what
`checkSequentialYamlSteps` returns or writes. -/
theorem checkSequentialYamlSteps_expected_optional (f : String) (pre post : List JsVal)
    (a b : List (String × JsVal)) (e : String)
    (hno : (JsVal.obj (a ++ b)).hasOwnProperty "expected" = false)
    (he : ∃ c ∈ e.data, isSpace c = false) :
    checkSequentialYamlSteps f
        (JsVal.arr (pre ++ JsVal.obj (a ++ ("expected", JsVal.str e) :: b) :: post)) =
      checkSequentialYamlSteps f (JsVal.arr (pre ++ JsVal.obj (a ++ b) :: post)) ∧
    checkSequentialYamlSteps f
        (JsVal.arr [JsVal.obj [("1", JsVal.str "a"), ("expected", JsVal.str "x")],
          JsVal.obj [("2", JsVal.str "b")]]) = (true, []) :=
  ⟨checkSequentialYamlSteps_congr f pre post _ _ (checkStep_insert_expected f a b e hno he), rfl⟩

theorem checkSequentialYamlSteps_expected_optional_witness :
    checkSequentialYamlSteps "a.md"
        (JsVal.arr ([JsVal.obj [("1", JsVal.str "a")]] ++
          JsVal.obj ([("2", JsVal.str "b")] ++ ("expected", JsVal.str "ok") ::
            [("note", JsVal.num 1)]) :: [JsVal.obj [("3", JsVal.str "c")]])) =
      checkSequentialYamlSteps "a.md"
        (JsVal.arr ([JsVal.obj [("1", JsVal.str "a")]] ++
          JsVal.obj ([("2", JsVal.str "b")] ++ [("note", JsVal.num 1)]) ::
            [JsVal.obj [("3", JsVal.str "c")]])) :=
  (checkSequentialYamlSteps_expected_optional "a.md" [JsVal.obj [("1", JsVal.str "a")]]
    [JsVal.obj [("3", JsVal.str "c")]] [("2", JsVal.str "b")] [("note", JsVal.num 1)] "ok"
    rfl ⟨'o', by decide, by decide⟩).1

theorem numericKeys_arr_nil : numericKeys (JsVal.arr []) = [] := rfl

theorem numericKeys_arr_single (y : JsVal) : numericKeys (JsVal.arr [y]) = ["0"] := rfl

theorem numericKeys_arr_two (y z : JsVal) (rest : List JsVal) :
    2 ≤ (numericKeys (JsVal.arr (y :: z :: rest))).length := by
  rw [numericKeys_eq]
  have h0 : test numericKeyRe (toString 0) = true := by decide
  have h1 : test numericKeyRe (toString (0 + 1)) = true := by decide
  have hne : ((toString (0 + 1) : String) != toString 0) = true := by decide
  simp only [JsVal.entries, JsVal.indexed, List.map_cons, List.filter_cons, h0, h1, if_true,
    JsVal.distinctKeys, hne, List.length_cons]
  omega

theorem arr_length_of_valid (ys : List JsVal) (h : StructValid (JsVal.arr ys)) :
    ys.length = 1 := by
  obtain ⟨_, ⟨k, hk, _⟩, _⟩ := h
  match ys, hk with
  | [], hk => rw [numericKeys_arr_nil] at hk; cases hk
  | [_], _ => rfl
  | y :: z :: rest, hk =>
    have := numericKeys_arr_two y z rest
    rw [hk] at this
    simp at this

theorem not_perm_of_zero_mem (nums : List Nat) (n : Nat) (h : 0 ∈ nums) :
    ¬ nums.Perm (List.range' 1 n) := by
  intro hp
  have := hp.mem_iff.1 h
  simp only [List.mem_range'_1] at this
  omega

/-- C19: an array is never accepted as a step: an array with an entry that is
itself an array makes `checkSequentialYamlSteps` return false. An entry array
of length other than 1 has not exactly one numeric key, and one of length 1 has
the step number 0, which 1..n does not contain. -/
theorem checkSequentialYamlSteps_rejects_nested_array (f : String) (xs ys : List JsVal)
    (h : JsVal.arr ys ∈ xs) :
    (checkSequentialYamlSteps f (JsVal.arr xs)).1 = false ∧
    (ys.length ≠ 1 → (numericKeys (JsVal.arr ys)).length ≠ 1 ∧ Violation (JsVal.arr ys)) ∧
    (ys.length = 1 → stepNumber (JsVal.arr ys) = 0) := by
  have hzero : ys.length = 1 → stepNumber (JsVal.arr ys) = 0 := by
    intro hl
    obtain ⟨y, rfl⟩ := List.length_eq_one.1 hl
    rfl
  refine ⟨?_, ?_, hzero⟩
  · by_cases hv : ∀ s ∈ xs, StructValid s
    · have hl := arr_length_of_valid ys (hv _ h)
      have hmem : 0 ∈ xs.map stepNumber := List.mem_map.2 ⟨JsVal.arr ys, h, hzero hl⟩
      have hnp := not_perm_of_zero_mem _ xs.length hmem
      have hs := sorted_sequential_iff (xs.map stepNumber)
      rw [List.length_map] at hs
      rw [checkSequentialYamlSteps_of_valid f xs hv, if_neg (fun hx => hnp (hs.1 hx))]
    · have hx : ∃ s ∈ xs, ¬ StructValid s := by
        by_contra hno
        exact hv (fun s hs => by_contra (fun hn => hno ⟨s, hs, hn⟩))
      exact checkSequentialYamlSteps_false_of_invalid f xs hx
  · intro hl
    have hk : (numericKeys (JsVal.arr ys)).length ≠ 1 := by
      intro hone
      match ys, hl, hone with
      | [], _, hone => rw [numericKeys_arr_nil] at hone; cases hone
      | [_], hl, _ => exact hl rfl
      | y :: z :: rest, _, hone =>
        have := numericKeys_arr_two y z rest
        omega
    exact ⟨hk, Or.inr (Or.inl hk)⟩

theorem checkSequentialYamlSteps_rejects_nested_array_witness :
    (checkSequentialYamlSteps "a.md"
      (JsVal.arr [JsVal.arr [JsVal.str "a"], JsVal.obj [("1", JsVal.str "b")]])).1 = false :=
  (checkSequentialYamlSteps_rejects_nested_array "a.md"
    [JsVal.arr [JsVal.str "a"], JsVal.obj [("1", JsVal.str "b")]] [JsVal.str "a"]
    (List.mem_cons_self _ _)).1

theorem matchStar_to_end (cls : Char → Bool) (k : List Char → Bool) (h0 : k [] = true)
    (h1 : ∀ c cs, k (c :: cs) = false) (cs : List Char) :
    matchStar cls k cs = cs.all cls := by
  induction cs with
  | nil => simpa [matchStar] using h0
  | cons c cs ih => simp [matchStar, ih, h1]

theorem test_numericKeyRe_iff (k : String) :
    test numericKeyRe k = true ↔ k.data ≠ [] ∧ k.data.all isDigit = true := by
  have hs := matchStar_to_end isDigit (matchItems [RItem.eos]) rfl (fun _ _ => rfl)
  unfold test numericKeyRe
  cases hk : k.data with
  | nil => simp [matchItems]
  | cons c cs =>
    show (isDigit c && matchStar isDigit (matchItems [RItem.eos]) cs) = true ↔ _
    rw [hs]
    simp

theorem padKey_numeric (zeros : Nat) (k : String) (h : test numericKeyRe k = true) :
    test numericKeyRe (padKey zeros k) = true := by
  rw [test_numericKeyRe_iff] at h ⊢
  obtain ⟨h1, h2⟩ := h
  refine ⟨by simp [padKey, h1], ?_⟩
  simp only [padKey, List.all_append, h2, Bool.and_true, List.all_eq_true]
  intro c hc
  rw [List.eq_of_mem_replicate hc]
  decide

theorem toNumber_padKey (zeros : Nat) (k : String) : toNumber (padKey zeros k) = toNumber k := by
  unfold toNumber padKey decimalValue
  simp only [List.foldl_append]
  congr 2
  induction zeros with
  | zero => rfl
  | succ n ih =>
    rw [List.replicate_succ, List.foldl_cons]
    exact ih

theorem mem_distinctKeys (x : String) (ks : List String) :
    x ∈ JsVal.distinctKeys ks ↔ x ∈ ks := by
  induction ks with
  | nil => simp [JsVal.distinctKeys]
  | cons k ks ih =>
    simp only [JsVal.distinctKeys, List.mem_cons, List.mem_filter, ih]
    by_cases hx : x = k
    · simp [hx]
    · simp [hx]

theorem distinctKeys_eq_singleton (ks : List String) (k : String) :
    JsVal.distinctKeys ks = [k] ↔ ks ≠ [] ∧ ∀ x ∈ ks, x = k := by
  cases ks with
  | nil => simp [JsVal.distinctKeys]
  | cons a ks =>
    simp only [JsVal.distinctKeys, List.cons.injEq, List.filter_eq_nil_iff, ne_eq,
      not_false_eq_true, true_and, List.mem_cons, forall_eq_or_imp, reduceCtorEq]
    constructor
    · rintro ⟨rfl, h⟩
      refine ⟨rfl, fun x hx => ?_⟩
      by_contra hne
      exact h x ((mem_distinctKeys x ks).2 hx) (by simpa using hne)
    · rintro ⟨rfl, h⟩
      refine ⟨rfl, fun x hx => ?_⟩
      simp [h x ((mem_distinctKeys x ks).1 hx)]

theorem renameKey_cons (k k2 a : String) (v : JsVal) (kvs : List (String × JsVal)) :
    renameKey k k2 ((a, v) :: kvs) =
      (if a = k then (k2, v) else (a, v)) :: renameKey k k2 kvs := rfl

theorem lookup_renameKey_new (k k2 : String) (kvs : List (String × JsVal))
    (hq : ∀ p ∈ kvs, p.1 ≠ k → p.1 ≠ k2) :
    List.lookup k2 (renameKey k k2 kvs) = List.lookup k kvs := by
  induction kvs with
  | nil => rfl
  | cons p kvs ih =>
    obtain ⟨a, v⟩ := p
    have ih2 := ih (fun p hp => hq p (List.mem_cons_of_mem _ hp))
    rw [renameKey_cons]
    by_cases ha : a = k
    · subst ha
      rw [if_pos rfl, List.lookup_cons, List.lookup_cons]
      simp
    · have hne := hq (a, v) (List.mem_cons_self _ _) ha
      have h1 : (k2 == a) = false := by simpa using fun h => hne h.symm
      have h2 : (k == a) = false := by simpa using fun h => ha h.symm
      rw [if_neg ha, List.lookup_cons, List.lookup_cons, h1, h2]
      exact ih2

theorem lookup_renameKey_other (k k2 q : String) (kvs : List (String × JsVal))
    (h1 : q ≠ k) (h2 : q ≠ k2) :
    List.lookup q (renameKey k k2 kvs) = List.lookup q kvs := by
  induction kvs with
  | nil => rfl
  | cons p kvs ih =>
    obtain ⟨a, v⟩ := p
    rw [renameKey_cons]
    by_cases ha : a = k
    · subst ha
      have e1 : (q == k2) = false := by simpa using h2
      have e2 : (q == a) = false := by simpa using h1
      rw [if_pos rfl, List.lookup_cons, List.lookup_cons, e1, e2]
      exact ih
    · rw [if_neg ha, List.lookup_cons, List.lookup_cons, ih]

theorem renameKey_valid (k : String) (zeros : Nat) (kvs : List (String × JsVal))
    (hv : StructValid (JsVal.obj kvs)) (hk : numericKeys (JsVal.obj kvs) = [k]) :
    StructValid (JsVal.obj (renameKey k (padKey zeros k) kvs)) ∧
      numericKeys (JsVal.obj (renameKey k (padKey zeros k) kvs)) = [padKey zeros k] := by
  obtain ⟨_, ⟨k0, hk0, ha⟩, he⟩ := hv
  have hkk : k0 = k := by
    rw [hk] at hk0
    exact (List.singleton_inj.1 hk0).symm
  subst hkk
  have hkeys := hk
  rw [numericKeys_eq, distinctKeys_eq_singleton] at hkeys
  obtain ⟨hne, hall⟩ := hkeys
  simp only [JsVal.entries] at hne hall
  have hknum : test numericKeyRe k0 = true := by
    obtain ⟨x, hx⟩ := List.exists_mem_of_ne_nil _ hne
    have := hall x hx
    subst this
    exact (List.mem_filter.1 hx).2
  have hpnum := padKey_numeric zeros k0 hknum
  have honly : ∀ p ∈ kvs, p.1 ≠ k0 → test numericKeyRe p.1 = false := by
    intro p hp hpk
    by_contra hn
    exact hpk (hall p.1 (List.mem_filter.2 ⟨List.mem_map.2 ⟨p, hp, rfl⟩, by simpa using hn⟩))
  have hfresh : ∀ p ∈ kvs, p.1 ≠ k0 → p.1 ≠ padKey zeros k0 := by
    intro p hp hpk heq
    have := honly p hp hpk
    rw [heq, hpnum] at this
    exact Bool.noConfusion this
  have hmemk : ∃ p ∈ kvs, p.1 = k0 := by
    obtain ⟨x, hx⟩ := List.exists_mem_of_ne_nil _ hne
    have hxk := hall x hx
    obtain ⟨p, hp, hpx⟩ := List.mem_map.1 (List.mem_filter.1 hx).1
    exact ⟨p, hp, hpx.trans hxk⟩
  have hnewkeys : numericKeys (JsVal.obj (renameKey k0 (padKey zeros k0) kvs)) =
      [padKey zeros k0] := by
    rw [numericKeys_eq, distinctKeys_eq_singleton]
    simp only [JsVal.entries]
    constructor
    · obtain ⟨p, hp, hpk⟩ := hmemk
      intro hnil
      have hm : padKey zeros k0 ∈ List.filter (test numericKeyRe)
          (List.map Prod.fst (renameKey k0 (padKey zeros k0) kvs)) := by
        refine List.mem_filter.2 ⟨List.mem_map.2 ⟨(padKey zeros k0, p.2), ?_, rfl⟩, hpnum⟩
        exact List.mem_map.2 ⟨p, hp, by simp [hpk]⟩
      rw [hnil] at hm
      cases hm
    · intro x hx
      obtain ⟨hx1, hx2⟩ := List.mem_filter.1 hx
      obtain ⟨q, hq, hqx⟩ := List.mem_map.1 hx1
      obtain ⟨p, hp, hpq⟩ := List.mem_map.1 hq
      by_cases hpk : p.1 = k0
      · rw [if_pos hpk] at hpq
        rw [← hqx, ← hpq]
      · rw [if_neg hpk] at hpq
        have := honly p hp hpk
        rw [← hqx, ← hpq] at hx2
        rw [hx2] at this
        exact Bool.noConfusion this
  have hke : k0 ≠ "expected" := ne_expected_of_numeric k0 hknum
  have hpe : padKey zeros k0 ≠ "expected" := ne_expected_of_numeric _ hpnum
  have hlk := lookup_renameKey_other k0 (padKey zeros k0) "expected" kvs hke.symm hpe.symm
  refine ⟨⟨⟨rfl, by simp⟩, ⟨padKey zeros k0, hnewkeys, ?_⟩, ?_⟩, hnewkeys⟩
  · have : (JsVal.obj (renameKey k0 (padKey zeros k0) kvs)).getProp (padKey zeros k0) =
        (JsVal.obj kvs).getProp k0 := by
      simp only [JsVal.getProp, JsVal.entries, lookup_renameKey_new k0 _ kvs hfresh]
    rw [this]
    exact ha
  · have h1 : (JsVal.obj (renameKey k0 (padKey zeros k0) kvs)).hasOwnProperty "expected" =
        (JsVal.obj kvs).hasOwnProperty "expected" := by
      simp only [JsVal.hasOwnProperty, JsVal.entries, hlk]
    have h2 : (JsVal.obj (renameKey k0 (padKey zeros k0) kvs)).getProp "expected" =
        (JsVal.obj kvs).getProp "expected" := by
      simp only [JsVal.getProp, JsVal.entries, hlk]
    rw [h1, h2]
    exact he

/-- C20: step keys count by their numeric value: writing the numeric key of a
structurally valid step object with additional leading zeros changes neither
the result nor the diagnostics of `checkSequentialYamlSteps`; so the keys `01`
and `2` make a valid sequence, while an object with both `1` and `01` is
rejected for not having exactly one numeric key. -/
theorem checkSequentialYamlSteps_leading_zeros (f : String) (pre post : List JsVal)
    (kvs : List (String × JsVal)) (k : String) (zeros : Nat)
    (hv : StructValid (JsVal.obj kvs)) (hk : numericKeys (JsVal.obj kvs) = [k]) :
    checkSequentialYamlSteps f
        (JsVal.arr (pre ++ JsVal.obj (renameKey k (padKey zeros k) kvs) :: post)) =
      checkSequentialYamlSteps f (JsVal.arr (pre ++ JsVal.obj kvs :: post)) ∧
    stepNumber (JsVal.obj (renameKey k (padKey zeros k) kvs)) = stepNumber (JsVal.obj kvs) ∧
    checkSequentialYamlSteps f
        (JsVal.arr [JsVal.obj [("01", JsVal.str "a")], JsVal.obj [("2", JsVal.str "b")]]) =
      (true, []) ∧
    checkSequentialYamlSteps f
        (JsVal.arr [JsVal.obj [("1", JsVal.str "a"), ("01", JsVal.str "b")]]) =
      (false, [f ++ " - Each step must have exactly one numeric key (e.g., \"1\")"]) := by
  obtain ⟨hv2, hk2⟩ := renameKey_valid k zeros kvs hv hk
  have hnum : stepNumber (JsVal.obj (renameKey k (padKey zeros k) kvs)) =
      stepNumber (JsVal.obj kvs) := by
    simp only [stepNumber, hk, hk2, List.headD_cons, toNumber_padKey]
  refine ⟨?_, hnum, rfl, rfl⟩
  apply checkSequentialYamlSteps_congr
  rw [checkStep_of_valid f _ hv2, checkStep_of_valid f _ hv, hnum]

theorem checkSequentialYamlSteps_leading_zeros_witness :
    checkSequentialYamlSteps "a.md"
        (JsVal.arr ([JsVal.obj [("2", JsVal.str "b")]] ++
          JsVal.obj (renameKey "1" (padKey 2 "1")
            [("1", JsVal.str "a"), ("expected", JsVal.str "x")]) :: [])) =
      checkSequentialYamlSteps "a.md"
        (JsVal.arr ([JsVal.obj [("2", JsVal.str "b")]] ++
          JsVal.obj [("1", JsVal.str "a"), ("expected", JsVal.str "x")] :: [])) :=
  (checkSequentialYamlSteps_leading_zeros "a.md" [JsVal.obj [("2", JsVal.str "b")]] []
    [("1", JsVal.str "a"), ("expected", JsVal.str "x")] "1" 2
    (checkStep_ok_valid "" _ 1 rfl) rfl).1

/-! ## Renumbering body steps -/

theorem splitChars_ne_nil (cs : List Char) : splitChars cs ≠ [] := by
  match cs with
  | [] => simp [splitChars]
  | [c] =>
    simp only [splitChars]
    split <;> simp
  | c :: d :: cs =>
    simp only [splitChars]
    split
    · simp
    · split
      · simp
      · cases splitChars (d :: cs) <;> simp [consHead]

theorem consHead_cons (c : Char) (l : List Char) (ls : List (List Char)) :
    consHead c (l :: ls) = (c :: l) :: ls := rfl

theorem splitChars_eq_head_tail (cs : List Char) :
    splitChars cs = (splitChars cs).headD [] :: (splitChars cs).tail := by
  have := splitChars_ne_nil cs
  cases h : splitChars cs with
  | nil => exact absurd h this
  | cons a b => rfl

theorem splitChars_clean_append (u q : List Char) (h : ∀ c ∈ u, c ≠ '\n' ∧ c ≠ '\r') :
    splitChars (u ++ q) = (u ++ (splitChars q).headD []) :: (splitChars q).tail := by
  induction u with
  | nil => simpa using splitChars_eq_head_tail q
  | cons c u ih =>
    have hc := h c (List.mem_cons_self _ _)
    rw [List.cons_append, splitChars_plain c _ hc.1 hc.2,
      ih (fun d hd => h d (List.mem_cons_of_mem _ hd)), consHead_cons]
    rfl

theorem glue_cons_of_ne_nil (x : List Char) (A W : List (List Char)) (hA : A ≠ []) :
    glue (x :: A) W = x :: glue A W := by
  cases A with
  | nil => exact absurd rfl hA
  | cons y rest => rfl

theorem glue_consHead (c : Char) (A W : List (List Char)) (hA : A ≠ []) :
    glue (consHead c A) W = consHead c (glue A W) := by
  match A, hA with
  | [x], _ => rfl
  | x :: y :: rest, _ => rfl

theorem splitChars_cr_plain (d : Char) (cs : List Char) (hd : d ≠ '\n') :
    splitChars ('\r' :: d :: cs) = consHead '\r' (splitChars (d :: cs)) := by
  simp [splitChars, hd]

theorem splitChars_append : ∀ (p w : List Char), w.head? ≠ some '\n' →
    splitChars (p ++ w) = glue (splitChars p) (splitChars w)
  | [], w, _ => by
    show splitChars w = glue [[]] (splitChars w)
    simpa [glue] using splitChars_eq_head_tail w
  | [a], w, hw => by
    by_cases ha : a = '\n'
    · subst ha
      rw [List.singleton_append, splitChars_lf]
      show _ = glue [[], []] (splitChars w)
      simp only [glue, List.nil_append]
      rw [← splitChars_eq_head_tail]
    · by_cases har : a = '\r'
      · subst har
        cases w with
        | nil => simp [splitChars, glue]
        | cons d w2 =>
          have hd : d ≠ '\n' := by simpa using hw
          rw [List.singleton_append, splitChars_cr_plain d w2 hd]
          have : splitChars ['\r'] = [['\r']] := by decide
          rw [this]
          conv_lhs => rw [splitChars_eq_head_tail (d :: w2)]
          rfl
      · rw [List.singleton_append, splitChars_plain a w ha har]
        have : splitChars [a] = [[a]] := by simp [splitChars, ha]
        rw [this]
        conv_lhs => rw [splitChars_eq_head_tail w]
        rfl
  | a :: b :: p2, w, hw => by
    have ih1 := splitChars_append (b :: p2) w hw
    have ih2 := splitChars_append p2 w hw
    by_cases ha : a = '\n'
    · subst ha
      rw [List.cons_append, splitChars_lf, splitChars_lf, ih1,
        glue_cons_of_ne_nil _ _ _ (splitChars_ne_nil _)]
    · by_cases hcr : a = '\r' ∧ b = '\n'
      · obtain ⟨rfl, rfl⟩ := hcr
        rw [List.cons_append, List.cons_append, splitChars_crlf, splitChars_crlf,
          ih2, glue_cons_of_ne_nil _ _ _ (splitChars_ne_nil _)]
      · have e1 : splitChars (a :: b :: p2) = consHead a (splitChars (b :: p2)) := by
          simp [splitChars, ha, hcr]
        have e2 : splitChars (a :: b :: (p2 ++ w)) =
            consHead a (splitChars (b :: (p2 ++ w))) := by
          simp [splitChars, ha, hcr]
        rw [List.cons_append] at ih1
        rw [List.cons_append, List.cons_append, e1, e2,
          glue_consHead _ _ _ (splitChars_ne_nil _), ih1]

theorem space_not_digit (c : Char) (h : isSpace c = true) : isDigit c = false := by
  by_contra hd
  have hd2 : isDigit c = true := by simpa using hd
  simp only [isSpace, isDigit, Bool.or_eq_true, Bool.and_eq_true, beq_iff_eq,
    decide_eq_true_eq] at h hd2
  omega

theorem digit_not_space (c : Char) (h : isDigit c = true) : isSpace c = false := by
  by_contra hs
  have := space_not_digit c (by simpa using hs)
  rw [h] at this
  exact Bool.noConfusion this

theorem digit_not_lit (c d : Char) (h : isDigit c = true) (hd : isDigit d = false) :
    (c == d) = false := by
  by_contra he
  have : c = d := by simpa using he
  rw [this, hd] at h
  exact Bool.noConfusion h

theorem space_not_lit (c d : Char) (h : isSpace c = true) (hd : isSpace d = false) :
    (c == d) = false := by
  by_contra he
  have : c = d := by simpa using he
  rw [this, hd] at h
  exact Bool.noConfusion h

theorem digit_clean (c : Char) (h : isDigit c = true) : c ≠ '\n' ∧ c ≠ '\r' := by
  constructor
  · intro he
    rw [he] at h
    exact absurd h (by decide)
  · intro he
    rw [he] at h
    exact absurd h (by decide)

theorem matchStar_skip (cls : Char → Bool) (k : List Char → Bool) (x r : List Char)
    (hx : ∀ c ∈ x, cls c = true ∧ ∀ cs, k (c :: cs) = false) :
    matchStar cls k (x ++ r) = matchStar cls k r := by
  induction x with
  | nil => rfl
  | cons c x ih =>
    obtain ⟨h1, h2⟩ := hx c (List.mem_cons_self _ _)
    simp only [List.cons_append, matchStar, h1, h2, Bool.true_and, Bool.or_false]
    exact ih (fun d hd => hx d (List.mem_cons_of_mem _ hd))

theorem matchStar_stop (cls : Char → Bool) (k : List Char → Bool) (d : Char) (r : List Char)
    (hd : cls d = false) : matchStar cls k (d :: r) = k (d :: r) := by
  simp [matchStar, hd]

theorem stepRe_digit_run (x ds r : List Char) (hx : ∀ c ∈ x, isSpace c = true)
    (hne : ds ≠ []) (hds : ∀ c ∈ ds, isDigit c = true) :
    matchItems stepRe (x ++ ds ++ r) =
      matchStar isDigit
        (matchItems [lit '.', RItem.plus isSpace, RItem.one (fun c => !isSpace c)]) r := by
  obtain ⟨d, ds0, rfl⟩ := List.exists_cons_of_ne_nil hne
  have hd := hds d (List.mem_cons_self _ _)
  show matchStar isSpace (matchItems [RItem.plus isDigit, lit '.', RItem.plus isSpace,
      RItem.one (fun c => !isSpace c)]) (x ++ (d :: ds0) ++ r) = _
  rw [List.append_assoc, matchStar_skip _ _ x _ (fun c hc => ⟨hx c hc, fun cs => by
      simp [matchItems, space_not_digit c (hx c hc)]⟩)]
  rw [List.cons_append, matchStar_stop _ _ d _ (digit_not_space d hd)]
  show (isDigit d && matchStar isDigit (matchItems [lit '.', RItem.plus isSpace,
      RItem.one (fun c => !isSpace c)]) (ds0 ++ r)) = _
  rw [hd, Bool.true_and]
  exact matchStar_skip _ _ ds0 r (fun c hc =>
    ⟨hds c (List.mem_cons_of_mem _ hc), fun cs => by
      simp [matchItems, lit, digit_not_lit c '.' (hds c (List.mem_cons_of_mem _ hc)) (by decide)]⟩)

theorem expectedRe_digit_run (x ds r : List Char) (hx : ∀ c ∈ x, isSpace c = true)
    (hne : ds ≠ []) (hds : ∀ c ∈ ds, isDigit c = true) :
    matchItems expectedRe (x ++ ds ++ r) = false := by
  obtain ⟨d, ds0, rfl⟩ := List.exists_cons_of_ne_nil hne
  have hd := hds d (List.mem_cons_self _ _)
  show matchStar isSpace (matchItems (lit '*' :: lit '*' :: lit 'E' :: lit 'x' :: lit 'p' ::
    lit 'e' :: lit 'c' :: lit 't' :: lit 'e' :: lit 'd' :: lit ':' :: lit '*' :: lit '*' ::
    [RItem.plus isSpace, RItem.one (fun c => !isSpace c)])) (x ++ (d :: ds0) ++ r) = false
  rw [List.append_assoc, matchStar_skip _ _ x _ (fun c hc => ⟨hx c hc, fun cs => by
      simp [matchItems, lit, space_not_lit c '*' (hx c hc) (by decide)]⟩)]
  rw [List.cons_append, matchStar_stop _ _ d _ (digit_not_space d hd)]
  simp [matchItems, lit, digit_not_lit d '*' hd (by decide)]

theorem lineFlags_digit_run (x ds ds2 r : List Char) (hx : ∀ c ∈ x, isSpace c = true)
    (hne : ds ≠ []) (hds : ∀ c ∈ ds, isDigit c = true)
    (hne2 : ds2 ≠ []) (hds2 : ∀ c ∈ ds2, isDigit c = true) :
    lineFlags (x ++ ds ++ r) = lineFlags (x ++ ds2 ++ r) := by
  simp only [lineFlags, stepRe_digit_run x ds r hx hne hds, stepRe_digit_run x ds2 r hx hne2 hds2,
    expectedRe_digit_run x ds r hx hne hds, expectedRe_digit_run x ds2 r hx hne2 hds2]

theorem bodyLoop_congr (f : String) (L1 L2 : List String) (i : Nat) (st : BodyState)
    (h : L1.map (fun l => lineFlags l.data) = L2.map (fun l => lineFlags l.data)) :
    bodyLoop f i L1 st = bodyLoop f i L2 st := by
  induction L1 generalizing L2 i st with
  | nil =>
    cases L2 with
    | nil => rfl
    | cons b L2 => simp at h
  | cons a L1 ih =>
    cases L2 with
    | nil => simp at h
    | cons b L2 =>
      simp only [List.map_cons, List.cons.injEq] at h
      obtain ⟨hab, hrest⟩ := h
      have hs : test stepRe a = test stepRe b := congrArg Prod.fst hab
      have hnext : test expectedRe (L1.headD "") = test expectedRe (L2.headD "") := by
        cases L1 with
        | nil =>
          cases L2 with
          | nil => rfl
          | cons d L2 => simp at hrest
        | cons c L1 =>
          cases L2 with
          | nil => simp at hrest
          | cons d L2 =>
            simp only [List.map_cons, List.cons.injEq] at hrest
            exact congrArg Prod.snd hrest.1
      simp only [bodyLoop, hs, hnext]
      split
      · split
        · exact ih _ _ _ hrest
        · exact ih _ _ _ hrest
      · exact ih _ _ _ hrest

theorem validateBodySteps_of_flags (f a b : String) (req : Bool)
    (h : (splitChars a.data).map lineFlags = (splitChars b.data).map lineFlags) :
    validateBodySteps f a req = validateBodySteps f b req := by
  have h2 : (splitLines a).map (fun l => lineFlags l.data) =
      (splitLines b).map (fun l => lineFlags l.data) := by
    simpa [splitLines, List.map_map, Function.comp_def] using h
  simp only [validateBodySteps, bodyLoop_congr f _ _ 0 _ h2]

theorem glue_flags (A t : List (List Char)) (u v h : List Char)
    (hA : A ≠ [])
    (hflags : lineFlags (A.getLastD [] ++ u ++ h) = lineFlags (A.getLastD [] ++ v ++ h)) :
    (glue A ((u ++ h) :: t)).map lineFlags = (glue A ((v ++ h) :: t)).map lineFlags := by
  induction A with
  | nil => exact absurd rfl hA
  | cons x A ih =>
    cases A with
    | nil =>
      simp only [glue, List.headD_cons, List.tail_cons, List.map_cons, List.cons.injEq, and_true]
      simpa [List.getLastD, List.append_assoc] using hflags
    | cons y rest =>
      simp only [glue, List.map_cons, List.cons.injEq, true_and]
      apply ih (by simp)
      simpa [List.getLastD] using hflags

/-- C15: body steps carry no numbering requirement: in any body, replacing a
run of digits that is preceded on its line by white space only (the number of a
numbered item) by any other non-empty run of digits changes neither the boolean
nor the diagnostics of `validateBodySteps`, line numbers included; so repeated
or unordered numbers, or numbers not starting at 1, are judged as 1, 2, 3 are. -/
theorem validateBodySteps_renumber (f : String) (req : Bool) (p q ds ds2 : List Char)
    (hws : ∀ c ∈ lineStart p, isSpace c = true)
    (hne : ds ≠ []) (hds : ∀ c ∈ ds, isDigit c = true)
    (hne2 : ds2 ≠ []) (hds2 : ∀ c ∈ ds2, isDigit c = true) :
    validateBodySteps f (String.mk (p ++ ds ++ q)) req =
      validateBodySteps f (String.mk (p ++ ds2 ++ q)) req ∧
    validateBodySteps f "7. a\n**Expected:** b\n7. c\n3. d\n" req =
      validateBodySteps f "1. a\n**Expected:** b\n2. c\n3. d\n" req := by
  have hsplit : ∀ u : List Char, u ≠ [] → (∀ c ∈ u, isDigit c = true) →
      splitChars (p ++ u ++ q) =
        glue (splitChars p) ((u ++ (splitChars q).headD []) :: (splitChars q).tail) := by
    intro u hu hud
    have hhead : (u ++ q).head? ≠ some '\n' := by
      obtain ⟨d, u0, rfl⟩ := List.exists_cons_of_ne_nil hu
      have := (digit_clean d (hud d (List.mem_cons_self _ _))).1
      simpa using this
    rw [List.append_assoc, splitChars_append p (u ++ q) hhead,
      splitChars_clean_append u q (fun c hc => digit_clean c (hud c hc))]
  refine ⟨?_, ?_⟩
  · apply validateBodySteps_of_flags
    show (splitChars (p ++ ds ++ q)).map lineFlags = (splitChars (p ++ ds2 ++ q)).map lineFlags
    rw [hsplit ds hne hds, hsplit ds2 hne2 hds2]
    exact glue_flags _ _ _ _ _ (splitChars_ne_nil p)
      (lineFlags_digit_run _ ds ds2 _ hws hne hds hne2 hds2)
  · cases req <;> rfl

theorem validateBodySteps_renumber_witness :
    validateBodySteps "t.md" (String.mk ("1. a\nx\n  ".data ++ "2".data ++ ". b".data)) false =
      validateBodySteps "t.md" (String.mk ("1. a\nx\n  ".data ++ "001".data ++ ". b".data))
        false :=
  (validateBodySteps_renumber "t.md" false "1. a\nx\n  ".data ". b".data "2".data "001".data
    (by decide) (by decide) (by decide) (by decide) (by decide)).1

end ValidateSchema
